import Mathlib

/-!
Verification development for the deterministic parameter-set sampler of
`mackelab_toolbox/parameters.py` (classes `Transform`, `ParameterSetSampler`,
`ParameterSampler` and the nested `ParameterSampler.PopSampler`).

The Python source is shallowly embedded:
* `ParameterSet` trees (the external `parameters` configuration collaborator)
  become `PSet` association lists; attribute access on a `ParameterSet`
  converts a missing key to `AttributeError`, item access to `KeyError`,
  `in` to key membership, exactly as the collaborator behaves.
* The process-wide NumPy generator becomes an explicit `RNGState` value;
  `np.random.seed/get_state/set_state` copy it, and every call of a
  `np.random.<dist>` primitive advances it by one step.  Draws are opaque
  symbolic values (`Value.draw`) fully determined by the distribution kind,
  resolved parameters, block size and the generator state consumed — the
  core only orchestrates *when* draws happen, never their numeric content.
* Python exceptions become `PyErr`; mutating code is written in explicit
  state-passing style where the state is also returned on the error path,
  because the source has no `try/finally`: whatever state the mutable
  objects hold when an exception propagates is what the caller observes.
* The unbounded recursion of `ParameterSampler._sample` and of the
  `previous`/`previous_offset` properties is driven by fuel; exhausted fuel
  is `PyErr.recursionError` (Python's `RecursionError`).
-/

/-! ### Character/string helpers

Lean's built-in `String.splitOn`, `String.trim`, `String.toInt?` and the
`String` order do not reduce in the kernel, so the corresponding Python
string operations (`str.split`, `str.strip`, `int(...)`, `sorted`) are
modelled by structurally recursive functions over `List Char`. -/

def isSpaceCh (c : Char) : Bool :=
  c = ' ' || c = '\t' || c = '\n' || c = '\r'

def isDigitCh (c : Char) : Bool :=
  48 ≤ c.toNat && c.toNat ≤ 57

def isAlphaCh (c : Char) : Bool :=
  (65 ≤ c.toNat && c.toNat ≤ 90) || (97 ≤ c.toNat && c.toNat ≤ 122)

def isIdentStartCh (c : Char) : Bool := isAlphaCh c || c = '_'

def isIdentCh (c : Char) : Bool := isIdentStartCh c || isDigitCh c

/-- `str.strip()` on the left. -/
def dropSpaces : List Char → List Char
  | [] => []
  | c :: cs => if isSpaceCh c then dropSpaces cs else c :: cs

/-- `str.strip()`. -/
def stripChars (cs : List Char) : List Char :=
  (dropSpaces (dropSpaces cs.reverse).reverse)

def pyStrip (s : String) : String := String.mk (stripChars s.data)

/-- Does `pat` occur as a prefix of `cs`? -/
def charsPrefix : List Char → List Char → Bool
  | [], _ => true
  | _ :: _, [] => false
  | p :: ps, c :: cs => p = c && charsPrefix ps cs

/-- `str.split(sep)` for a non-empty separator: split at every
non-overlapping occurrence, keeping empty pieces.  Fuel-driven (structural
recursion, so the kernel can evaluate it); `fuel = length + 1` always
suffices because every step consumes at least one character. -/
def splitOnFuel (s0 : Char) (srest : List Char) : Nat → List Char → List Char → List (List Char)
  | 0, _, acc => [acc.reverse]
  | _ + 1, [], acc => [acc.reverse]
  | fuel + 1, c :: cs, acc =>
    if charsPrefix (s0 :: srest) (c :: cs) then
      acc.reverse :: splitOnFuel s0 srest fuel (cs.drop srest.length) []
    else
      splitOnFuel s0 srest fuel cs (c :: acc)

/-- `str.split(sep)` lifted to `String` (separators at the use sites are
non-empty; an empty separator raises in Python and is mapped to no split). -/
def pySplit (s : String) (sep : String) : List String :=
  match sep.data with
  | [] => [s]
  | s0 :: srest => (splitOnFuel s0 srest (s.data.length + 1) s.data []).map String.mk

/-- Digits of a decimal literal. -/
def digitsVal : List Char → Option Nat
  | [] => none
  | cs => digitsValAux cs 0
where
  digitsValAux : List Char → Nat → Option Nat
    | [], acc => some acc
    | c :: cs, acc =>
      if isDigitCh c then digitsValAux cs (acc * 10 + (c.toNat - 48)) else none

/-- Python `int(s)`: strip whitespace, optional sign, decimal digits;
anything else raises `ValueError`. -/
def pyIntOfChars (cs : List Char) : Option Int :=
  match stripChars cs with
  | '-' :: rest => (digitsVal rest).map (fun n => -(n : Int))
  | '+' :: rest => (digitsVal rest).map (fun n => (n : Int))
  | rest => (digitsVal rest).map (fun n => (n : Int))

/-- Python string comparison (lexicographic on code points), used to model
`sorted(...)` over variable names. -/
def strLeB (a b : String) : Bool := lexLe a.data b.data
where
  lexLe : List Char → List Char → Bool
    | [], _ => true
    | _ :: _, [] => false
    | c :: cs, d :: ds =>
      if c.toNat < d.toNat then true
      else if d.toNat < c.toNat then false
      else lexLe cs ds

/-! ### Python values, parameter-set trees and exceptions -/

/-- A scalar-or-list Python value stored in a parameter set (lists are
cons-encoded so that `DecidableEq` can be derived). -/
inductive PyVal where
  | int (n : Int)
  | str (s : String)
  | nil
  | cons (hd tl : PyVal)
deriving DecidableEq

def PyVal.ofList : List PyVal → PyVal
  | [] => .nil
  | v :: vs => .cons v (PyVal.ofList vs)

/-- Iterating a Python value: lists iterate their items, strings iterate
their characters, numbers are not iterable. -/
def PyVal.iter : PyVal → Option (List PyVal)
  | .int _ => none
  | .str s => some (s.data.map (fun c => PyVal.str (String.mk [c])))
  | .nil => some []
  | .cons h t => (PyVal.iter t).map (h :: ·)

/-- `str(v)`, as used by `"...".format(v)` in error messages. -/
def PyVal.show : PyVal → String
  | .int n => toString n
  | .str s => s
  | .nil => "[]"
  | .cons _ _ => "[...]"

/-- One entry of a `ParameterSet` tree: a plain value or a nested set. -/
inductive PEntry where
  | val (v : PyVal)
  | pset (ps : List (String × PEntry))

/-- A `ParameterSet` body: ordered `name → entry` association list. -/
abbrev PDict := List (String × PEntry)

/-- Item/`get` access (`ps[k]`, successful branch). -/
def psGet (ps : PDict) (k : String) : Option PEntry := List.lookup k ps

/-- `k in ps`. -/
def psMem (ps : PDict) (k : String) : Bool := (psGet ps k).isSome

def PEntry.show : PEntry → String
  | .val v => v.show
  | .pset _ => "ParameterSet"

/-- Python exceptions raised by the modelled code.  `recursionError` also
stands for fuel exhaustion of the modelled unbounded recursions. -/
inductive PyErr where
  | valueError (msg : String)
  | attributeError (name : String)
  | keyError (key : String)
  | typeError (msg : String)
  | nameError (name : String)
  | notImplementedError (msg : String)
  | functionNotDefined (name : String)
  | nameNotDefined (name : String)
  | indexError (msg : String)
  | syntaxError
  | recursionError
deriving DecidableEq

/-! ### The shared pseudorandom generator

`np.random` is modelled as a value of `RNGState`:  `origin`/`tag` identify
the stream (`origin = some s` after `np.random.seed(s)`; `none` plus a
`tag` for an ambient stream that was never seeded by this code), `steps`
counts the draws made since.  `get_state`/`set_state` copy the whole
value. -/
structure RNGState where
  origin : Option Int
  tag : Nat
  steps : Nat
deriving DecidableEq

/-- `np.random.seed(s)`. -/
def npSeed (s : Int) : RNGState := ⟨some s, 0, 0⟩

/-- Advancing the generator by one primitive draw. -/
def RNGState.next (r : RNGState) : RNGState := { r with steps := r.steps + 1 }

/-- The distribution kinds recognized by `PopSampler.__getitem__`
(`expnormal` is `np.exp` applied to a `normal` draw and is represented as
such). -/
inductive DrawKind where
  | normal
  | exponential
  | gamma
deriving DecidableEq

/-- The symbolic value domain: everything the sampler can cache or return.
A `draw` records the distribution kind, the resolved parameters, the block
size and the generator state it consumed, which determines it completely.
Python lists are cons-encoded (`vnil`/`vcons`). -/
inductive Value where
  | arr (v : PyVal)
  | intv (n : Int)
  | draw (k : DrawKind) (args : List (Option PyVal)) (size : List PyVal) (st : RNGState)
  | capp (fn : String) (arg : Value)
  | mulF (factor : PyVal) (v : Value)
  | vnil
  | vcons (hd tl : Value)
  | npblock (arg : Value)
deriving DecidableEq

def Value.ofList : List Value → Value
  | [] => .vnil
  | v :: vs => .vcons v (Value.ofList vs)

deriving instance DecidableEq for Except

/-! ### Transform adapter (`class Transform`)

`Transform.__call__` evaluates the stored expression with `simpleeval`,
with names `{xname: x} ∪ {np: numpy, sp: scipy}` (the namespace update is
applied after, so `np`/`sp` shadow `xname`).  Function calls on a bare
name are looked up in simpleeval's `DEFAULT_FUNCTIONS` (`rand`, `randint`,
`int`, `float`, `str`) and fail with `FunctionNotDefined` otherwise;
attribute calls (`np.exp(...)`) go through the module namespaces.  The
expression grammar modelled here is the fragment used by transform
descriptors: integer literals, names, dotted attributes, single-argument
calls and parentheses. -/

/-- Abstract syntax of a transform expression. -/
inductive Expr where
  | num (n : Int)
  | name (s : String)
  | attr (e : Expr) (field : String)
  | callE (f : Expr) (arg : Expr)
deriving DecidableEq

/-- What a sub-expression evaluates to: a value, a module object (`np`,
`sp`) or a module function (`np.exp`, …). -/
inductive EvObj where
  | val (v : Value)
  | module (m : String)
  | func (f : String)
deriving DecidableEq

/-- Read an identifier prefix. -/
def readIdent : List Char → (List Char × List Char)
  | [] => ([], [])
  | c :: cs =>
    if isIdentCh c then
      match readIdent cs with
      | (tk, rest) => (c :: tk, rest)
    else ([], c :: cs)

/-- Read a digit prefix. -/
def readDigits : List Char → (List Char × List Char)
  | [] => ([], [])
  | c :: cs =>
    if isDigitCh c then
      match readDigits cs with
      | (tk, rest) => (c :: tk, rest)
    else ([], c :: cs)

mutual

/-- Parse one expression (fuel-driven recursive descent). -/
def parseExp : Nat → List Char → Option (Expr × List Char)
  | 0, _ => none
  | fuel + 1, cs =>
    let cs := dropSpaces cs
    match cs with
    | '(' :: rest =>
      match parseExp fuel rest with
      | some (e, rest2) =>
        match dropSpaces rest2 with
        | ')' :: rest3 => parseSuffix fuel e rest3
        | _ => none
      | none => none
    | c :: rest =>
      if isDigitCh c then
        match readDigits (c :: rest) with
        | (tk, rest2) =>
          match digitsVal tk with
          | some n => parseSuffix fuel (.num (n : Int)) rest2
          | none => none
      else if isIdentStartCh c then
        match readIdent (c :: rest) with
        | (tk, rest2) => parseSuffix fuel (.name (String.mk tk)) rest2
      else none
    | [] => none

/-- Parse attribute-access and call suffixes of an already-parsed head. -/
def parseSuffix : Nat → Expr → List Char → Option (Expr × List Char)
  | 0, _, _ => none
  | fuel + 1, e, cs =>
    match dropSpaces cs with
    | '.' :: rest =>
      match readIdent (dropSpaces rest) with
      | ([], _) => none
      | (tk, rest2) => parseSuffix fuel (.attr e (String.mk tk)) rest2
    | '(' :: rest =>
      match parseExp fuel rest with
      | some (a, rest2) =>
        match dropSpaces rest2 with
        | ')' :: rest3 => parseSuffix fuel (.callE e a) rest3
        | _ => none
      | none => none
    | rest => some (e, rest)

end

/-- Parse a whole expression string; anything but a complete parse is a
syntax error. -/
def parseExprString (s : String) : Option Expr :=
  match parseExp (s.data.length + 2) s.data with
  | some (e, rest) => if dropSpaces rest = [] then some e else none
  | none => none

/-- `simpleeval.DEFAULT_FUNCTIONS` (names callable without a namespace). -/
def defaultFunctions : List String := ["rand", "randint", "int", "float", "str"]

/-- The attributes the modelled `np`/`sp` namespaces expose (a fixed
whitelist standing for the numeric libraries; only `np.exp` is exercised
by the source's documented transforms). -/
def moduleAttrs : List String := ["exp", "log", "log10", "sqrt"]

/-- `simpleeval.simple_eval` on the modelled fragment. -/
def evalExpr : Expr → List (String × EvObj) → Except PyErr EvObj
  | .num n, _ => .ok (.val (.intv n))
  | .name s, env =>
    match List.lookup s env with
    | some o => .ok o
    | none => .error (.nameNotDefined s)
  | .attr e f, env =>
    match evalExpr e env with
    | .ok (.module m) =>
      if moduleAttrs.contains f then .ok (.func (m ++ "." ++ f))
      else .error (.attributeError f)
    | .ok _ => .error (.attributeError f)
    | .error err => .error err
  | .callE fe a, env =>
    match fe with
    | .name fn =>
      if defaultFunctions.contains fn then
        match evalExpr a env with
        | .ok (.val v) => .ok (.val (.capp fn v))
        | .ok _ => .error (.typeError "argument is not a value")
        | .error err => .error err
      else .error (.functionNotDefined fn)
    | .attr _ _ =>
      match evalExpr fe env with
      | .ok (.func fn) =>
        match evalExpr a env with
        | .ok (.val v) => .ok (.val (.capp fn v))
        | .ok _ => .error (.typeError "argument is not a value")
        | .error err => .error err
      | .ok _ => .error (.typeError "object is not callable")
      | .error err => .error err
    | _ => .error (.typeError "object is not callable")

/-- `class Transform`: stores the variable name and expression text of a
descriptor `"x -> expr"`. -/
structure Transform where
  xname : String
  expr : String
deriving DecidableEq

/-- The argument of `Transform(...)`: either a descriptor string or an
already-constructed `Transform` instance. -/
inductive TransformArg where
  | desc (s : String)
  | inst (t : Transform)
deriving DecidableEq

/-- `Transform.__new__` + `Transform.__init__`: calling `Transform` on an
existing instance returns that instance (and `__init__` skips
re-initialisation); a descriptor string is split on `"->"` into the
stripped variable name and expression (unpacking fails with `ValueError`
unless the split has exactly two pieces). -/
def Transform.make : TransformArg → Except PyErr Transform
  | .inst t => .ok t
  | .desc s =>
    match pySplit s "->" with
    | [xname, expr] => .ok ⟨pyStrip xname, pyStrip expr⟩
    | _ => .error (.valueError "transform description must split into name and expression")

/-- `Transform.__call__`: evaluate the expression with
`names = {xname: x}` updated with the `np`/`sp` namespaces (the update
shadows `xname` on collision).  A `NameNotDefined` from `simpleeval` is
re-raised with an annotated message (same exception type and name). -/
def Transform.call (t : Transform) (x : Value) : Except PyErr Value :=
  match parseExprString t.expr with
  | none => .error .syntaxError
  | some e =>
    match evalExpr e [("np", .module "np"), ("sp", .module "sp"), (t.xname, .val x)] with
    | .ok (.val v) => .ok v
    | .ok _ => .error (.typeError "expression did not evaluate to a value")
    | .error err => .error err

/-! ### `ParameterSampler.PopSampler`

`pop_samplers[key]` dispatches on the distribution kind and returns a
closure drawing one block; parameters are resolved through `__getattr__`:
population-specific value first (`distparams[key]` must exist and contain
the attribute), then the variable-wide value, then `None`. -/

/-- The `self.key` slot: the `NoPops` sentinel or a population key. -/
inductive PopKey where
  | noPops
  | label (k : String)
deriving DecidableEq

/-- `PopSampler.__getattr__` with `self.key` set (as it always is inside
`__getitem__`/`sample_pop`).  `distparams[self.key]` raises `KeyError`
when the population key has no sub-tree; `attr in <scalar>` raises
`TypeError` (the corner where the scalar is a string, for which Python
would do a substring test, is also mapped to `TypeError` here). -/
def popGetAttr (dp : PDict) (key : PopKey) (attr : String) : Except PyErr (Option PEntry) :=
  match key with
  | .noPops => .ok (psGet dp attr)
  | .label k =>
    match psGet dp k with
    | none => .error (.keyError k)
    | some (.val _) => .error (.typeError "argument is not iterable")
    | some (.pset sub) =>
      match psGet sub attr with
      | some e => .ok (some e)
      | none => .ok (psGet dp attr)

/-- Convert a resolved parameter to a NumPy draw argument: a missing
parameter is Python `None` and a nested `ParameterSet` is not numeric;
NumPy rejects both with `TypeError` when the draw primitive converts its
arguments. -/
def drawArg : Option PEntry → Except PyErr PyVal
  | some (.val v) => .ok v
  | some (.pset _) => .error (.typeError "float() argument must be a number")
  | none => .error (.typeError "float() argument must be a number, not NoneType")

/-- One `np.random.<kind>(args..., size=size)` call: convert the
arguments, then consume one generator step and produce the symbolic
draw. -/
def npDraw (k : DrawKind) (args : List (Option PEntry)) (size : List PyVal)
    (r : RNGState) : Except PyErr Value × RNGState :=
  match argsAux args with
  | .error e => (.error e, r)
  | .ok vs => (.ok (.draw k (vs.map some) size r), r.next)
where
  argsAux : List (Option PEntry) → Except PyErr (List PyVal)
    | [] => .ok []
    | a :: rest =>
      match drawArg a with
      | .error e => .error e
      | .ok v =>
        match argsAux rest with
        | .error e => .error e
        | .ok vs => .ok (v :: vs)

/-- `PopSampler.__getitem__(key)` followed by the returned
`sample_pop(size)`:  dispatch on `self.dist`, draw one block, then apply
the optional multiplicative `factor` (`res *= factor`). -/
def popSample (dp : PDict) (key : PopKey) (size : List PyVal)
    (r : RNGState) : Except PyErr Value × RNGState :=
  match popGetAttr dp key "dist" with
  | .error e => (.error e, r)
  | .ok distO =>
    -- `self.dist == '<literal>'` is true exactly when the resolved object
    -- is that string, so the dispatch compares the resolved kind string.
    let kind : Option String :=
      match distO with
      | some (.val (.str s)) => some s
      | _ => none
    let drawn : Except PyErr Value × RNGState :=
      if kind = some "normal" then
        match popGetAttr dp key "loc", popGetAttr dp key "scale" with
        | .error e, _ => (.error e, r)
        | _, .error e => (.error e, r)
        | .ok loc, .ok scale => npDraw .normal [loc, scale] size r
      else if kind = some "expnormal" then
        match popGetAttr dp key "loc", popGetAttr dp key "scale" with
        | .error e, _ => (.error e, r)
        | _, .error e => (.error e, r)
        | .ok loc, .ok scale =>
          match npDraw .normal [loc, scale] size r with
          | (.ok v, r2) => (.ok (.capp "np.exp" v), r2)
          | (.error e, r2) => (.error e, r2)
      else if kind = some "exponential" ∨ kind = some "exp" then
        match popGetAttr dp key "scale" with
        | .error e => (.error e, r)
        | .ok scale => npDraw .exponential [scale] size r
      else if kind = some "gamma" then
        match popGetAttr dp key "a", popGetAttr dp key "scale" with
        | .error e, _ => (.error e, r)
        | _, .error e => (.error e, r)
        | .ok a, .ok scale => npDraw .gamma [a, scale] size r
      else
        -- `raise ValueError("Unrecognized distribution type '{}'."
        --                   .format(self.distparams.dist))`
        match psGet dp "dist" with
        | some ent =>
          (.error (.valueError ("Unrecognized distribution type " ++ ent.show ++ ".")), r)
        | none => (.error (.attributeError "dist"), r)
    match drawn with
    | (.error e, r2) => (.error e, r2)
    | (.ok v, r2) =>
      match popGetAttr dp key "factor" with
      | .error e => (.error e, r2)
      | .ok none => (.ok v, r2)
      | .ok (some (.val f)) => (.ok (.mulF f v), r2)
      | .ok (some (.pset _)) => (.error (.typeError "unsupported operand for imul"), r2)

/-! ### `ParameterSampler.__init__` -/

/-- Sequential drawing of a list of blocks (Python evaluates the block
list comprehension left to right, threading the generator). -/
def mapDraws (f : α → RNGState → Except PyErr Value × RNGState) :
    List α → RNGState → Except PyErr (List Value) × RNGState
  | [], r => (.ok [], r)
  | x :: xs, r =>
    match f x r with
    | (.ok v, r1) =>
      match mapDraws f xs r1 with
      | (.ok vs, r2) => (.ok (v :: vs), r2)
      | (.error e, r2) => (.error e, r2)
    | (.error e, r1) => (.error e, r1)

/-- The `ConfigError` message of the shape/population arity check (the
source wraps the parameter name in single quotes; the quotes are elided
here). -/
def shapeMismatchMsg (name : String) (nparts npops : Nat) : String :=
  "The parameter " ++ name ++ " has a shape with " ++ toString nparts ++
    " components, but we have " ++ toString npops ++ " populations."

/-- `int(psize)` for every piece of a population-partition string. -/
def intPieces : List String → Except PyErr (List Int)
  | [] => .ok []
  | s :: rest =>
    match pyIntOfChars s.data with
    | none => .error (.valueError ("invalid literal for int with base 10: " ++ s))
    | some n =>
      match intPieces rest with
      | .error e => .error e
      | .ok ns => .ok (n :: ns)

/-- The `for s in desc.shape` loop of `ParameterSampler.__init__`:
accumulates the per-population-combination block shapes and the
`pop_pattern` of which axes are population-partitioned.  A string
component is split on `'+'`; its part count must equal the number of
declared populations (`ValueError` naming both counts otherwise, raised
before the `int` conversions); with no populations declared, `len(None)`
raises `TypeError`. -/
def buildShapes (name : String) (popnames : Option (List String)) :
    List PyVal → List (List PyVal) → List Bool →
    Except PyErr (List (List PyVal) × List Bool)
  | [], shapes, pat => .ok (shapes, pat)
  | c :: rest, shapes, pat =>
    match c with
    | .str s =>
      let pop_sizes := pySplit s "+"
      match popnames with
      | none => .error (.typeError "object of type NoneType has no len()")
      | some pn =>
        if pop_sizes.length = pn.length then
          match intPieces pop_sizes with
          | .error e => .error e
          | .ok sizes =>
            buildShapes name popnames rest
              ((shapes.map (fun rr => sizes.map (fun z => rr ++ [PyVal.int z]))).flatten)
              (pat ++ [true])
        else
          .error (.valueError (shapeMismatchMsg name pop_sizes.length pn.length))
    | v => buildShapes name popnames rest (shapes.map (· ++ [v])) (pat ++ [false])

/-- The `get_sample` closure selected by the `pop_pattern` dispatch of
`ParameterSampler.__init__` (before the transform wrap).  Unsupported
patterns raise `NotImplementedError` at construction.  `np.block`
arguments are represented verbatim: a list of blocks, a one-row nested
list, a one-column nested list, or the full population×population nested
list (rows in declaration order, generator threaded in comprehension
order). -/
def mkGetSample (dp : PDict) (popnames : Option (List String))
    (shapes : List (List PyVal)) (pat : List Bool) :
    Except PyErr (RNGState → Except PyErr Value × RNGState) :=
  if pat.all (fun b => b = false) then
    .ok (fun r => popSample dp .noPops (shapes.getD 0 []) r)
  else
    match pat, popnames with
    | [true], some pn =>
      .ok (fun r =>
        match mapDraws (fun pz r => popSample dp (.label pz.1) pz.2 r) (pn.zip shapes) r with
        | (.ok vs, r2) => (.ok (.npblock (Value.ofList vs)), r2)
        | (.error e, r2) => (.error e, r2))
    | [false, true], some pn =>
      .ok (fun r =>
        match mapDraws (fun pz r => popSample dp (.label pz.1) pz.2 r) (pn.zip shapes) r with
        | (.ok vs, r2) => (.ok (.npblock (Value.ofList [Value.ofList vs])), r2)
        | (.error e, r2) => (.error e, r2))
    | [true, false], some pn =>
      .ok (fun r =>
        match mapDraws (fun pz r => popSample dp (.label pz.1) pz.2 r) (pn.zip shapes) r with
        | (.ok vs, r2) =>
          (.ok (.npblock (Value.ofList (vs.map (fun v => Value.ofList [v])))), r2)
        | (.error e, r2) => (.error e, r2))
    | [true, true], some pn =>
      let n := pn.length
      .ok (fun r =>
        match mapDraws (fun (p1 : Nat × String) rr =>
            match mapDraws (fun (p2 : Nat × String) r3 =>
                popSample dp (.label (p1.2 ++ "," ++ p2.2))
                  (shapes.getD (p1.1 * n + p2.1) []) r3)
              pn.enum rr with
            | (.ok row, r4) => (.ok (Value.ofList row), r4)
            | (.error e, r4) => (.error e, r4))
          pn.enum r with
        | (.ok rows, r2) => (.ok (.npblock (Value.ofList rows)), r2)
        | (.error e, r2) => (.error e, r2))
    | _, _ =>
      .error (.notImplementedError
        "Population samplers for block-broadcastable pattern are not yet implemented.")

/-- One sampler node as built by `ParameterSampler.__init__` plus the
predecessor link installed by `set_previous` (`prev`/`offset` default to
`0` until the link is set). -/
structure NodeStatic where
  name : String
  initIdx : Option Int
  gen : RNGState → Except PyErr Value × RNGState
  prev : Nat
  offset : Int

instance : Inhabited NodeStatic :=
  ⟨⟨"", none, fun r => (.ok .vnil, r), 0, 0⟩⟩

/-- `ParameterSampler.__init__(name, desc, popnames)`.

A non-`ParameterSet` descriptor makes a constant node (`sampled_idx`
`None`, `get_sample` returning `np.array(desc)` without touching the
generator).  Otherwise: the `'dist' not in desc` guard (whose own error
message formats the missing `desc.dist` attribute, so an
`AttributeError` escapes), the shape loop, the `pop_pattern` dispatch and
the optional transform wrap `lambda: inverse(get_sample())` with
`inverse = Transform(desc.transform.back)`. -/
def mkSampler : String → PEntry → Option (List String) → Except PyErr NodeStatic
  | name, .val v, _ => .ok ⟨name, none, fun r => (.ok (.arr v), r), 0, 0⟩
  | name, .pset dp, popnames =>
    if psMem dp "dist" then
      let compsE : Except PyErr (List PyVal) :=
        match psGet dp "shape" with
        | none => .error (.attributeError "shape")
        | some (.pset ps) => .ok (ps.map (fun kv => PyVal.str kv.1))
        | some (.val v) =>
          match v.iter with
          | some comps => .ok comps
          | none => .error (.typeError "int object is not iterable")
      match compsE with
      | .error e => .error e
      | .ok comps =>
        match buildShapes name popnames comps [[]] [] with
        | .error e => .error e
        | .ok (shapes, pat) =>
          match mkGetSample dp popnames shapes pat with
          | .error e => .error e
          | .ok rawGen =>
            match psGet dp "transform" with
            | none => .ok ⟨name, some 0, rawGen, 0, 0⟩
            | some trE =>
              let backE : Except PyErr PEntry :=
                match trE with
                | .pset tp =>
                  match psGet tp "back" with
                  | some bE => .ok bE
                  | none => .error (.attributeError "back")
                | .val _ => .error (.attributeError "back")
              match backE with
              | .error e => .error e
              | .ok bE =>
                match bE with
                | .val (.str s) =>
                  match Transform.make (.desc s) with
                  | .error e => .error e
                  | .ok inverse =>
                    .ok ⟨name, some 0,
                      fun r =>
                        match rawGen r with
                        | (.ok v, r2) => (inverse.call v, r2)
                        | (.error e, r2) => (.error e, r2),
                      0, 0⟩
                | _ => .error (.attributeError "split")
    else
      .error (.attributeError "dist")

/-! ### `ParameterSetSampler.__init__` -/

/-- `ParameterSetSampler.population_attrs`. -/
def populationAttrsList : List String :=
  ["population", "populations", "mixture", "mixtures", "label", "labels"]

/-- Sorting of the variable names (`sorted(...)`, Python code-point
order). -/
def insertSorted (x : String) : List String → List String
  | [] => [x]
  | y :: ys => if strLeB x y then x :: y :: ys else y :: insertSorted x ys

def sortNames : List String → List String
  | [] => []
  | x :: xs => insertSorted x (sortNames xs)

/-- `ParameterSampler.set_previous`: a positive offset raises
`ValueError` (before the link attributes are assigned, so the node is
left unchanged); otherwise the predecessor position and offset are
stored.  (Offsets other than `0`/`-1` additionally log a warning, which
has no observable effect.) -/
def setPrevious (nd : NodeStatic) (prevPos : Nat) (offset : Int) :
    Except PyErr NodeStatic :=
  if 0 < offset then .error (.valueError "Offset cannot be positive.")
  else .ok { nd with prev := prevPos, offset := offset }

/-- Runtime state of one node: `sampled_idx` and the `deque` cache
(front = oldest). -/
structure NodeDyn where
  sampled_idx : Option Int
  cache : List Value

instance : Inhabited NodeDyn := ⟨⟨none, []⟩⟩

/-- Static data of a constructed chain. -/
structure ChainStatic where
  varnames : List String
  nodes : List NodeStatic

/-- A constructed `ParameterSetSampler`: static data, per-node runtime
state and the private generator snapshot `self.rng_state`. -/
structure Chain where
  static : ChainStatic
  dyn : List NodeDyn
  rng_state : RNGState

/-- Extraction of the population labels `dists[popattrs[0]]` (a list of
label strings; a malformed labels entry is rejected here, slightly
earlier than Python, which would fail at its first use). -/
def resolvePopnames (dists : PDict) : List String → Except PyErr (Option (List String))
  | [] => .ok none
  | a :: _ =>
    match psGet dists a with
    | none => .error (.keyError a)
    | some ent =>
      match ent with
      | .val v =>
        match v.iter with
        | none => .error (.typeError "population labels are not iterable")
        | some items =>
          match labelStrings items with
          | some labels => .ok (some labels)
          | none => .error (.typeError "population labels must be strings")
      | .pset _ => .error (.typeError "population labels are not iterable")
where
  labelStrings : List PyVal → Option (List String)
    | [] => some []
    | .str s :: rest => (labelStrings rest).map (s :: ·)
    | _ :: _ => none

/-- Seed resolution: the explicit constructor argument wins; otherwise
`getattr(dists, 'seed', None)`; a present but non-integer spec seed is
rejected by `np.random.seed`. -/
def resolveSeed (dists : PDict) (seed : Option Int) : Except PyErr (Option Int) :=
  match seed with
  | some s => .ok (some s)
  | none =>
    match psGet dists "seed" with
    | none => .ok none
    | some (.val (.int n)) => .ok (some n)
    | some _ => .error (.typeError "cannot seed from this object")

/-- `self._samplers = {varname: ParameterSampler(...) for varname in varnames}`. -/
def buildNodes (dists : PDict) (popnames : Option (List String)) :
    List String → Except PyErr (List NodeStatic)
  | [] => .ok []
  | n :: ns =>
    match psGet dists n with
    | none => .error (.keyError n)
    | some ent =>
      match mkSampler n ent popnames with
      | .error e => .error e
      | .ok nd =>
        match buildNodes dists popnames ns with
        | .error e => .error e
        | .ok nds => .ok (nd :: nds)

/-- The `set_previous` loop for positions `1, 2, …`. -/
def linkRest : Nat → List NodeStatic → Except PyErr (List NodeStatic)
  | _, [] => .ok []
  | i, nd :: rest =>
    match setPrevious nd (i - 1) 0 with
    | .error e => .error e
    | .ok nd2 =>
      match linkRest (i + 1) rest with
      | .error e => .error e
      | .ok rest2 => .ok (nd2 :: rest2)

/-- Linking the ring: node 0's predecessor is the last node with offset
`-1`; node `i`'s predecessor is node `i-1` with offset `0`.  An empty
variable list hits `self.varnames[0]` and raises `IndexError`. -/
def linkNodes (nodes : List NodeStatic) : Except PyErr (List NodeStatic) :=
  match nodes with
  | [] => .error (.indexError "list index out of range")
  | n0 :: rest =>
    match setPrevious n0 (nodes.length - 1) (-1) with
    | .error e => .error e
    | .ok n0' =>
      match linkRest 1 rest with
      | .error e => .error e
      | .ok rest' => .ok (n0' :: rest')

/-- `ParameterSetSampler.__init__(dists, seed=None)` run with the ambient
generator in state `ambient`; returns the constructed chain (or the
exception) together with the ambient generator state when the call
returns or the exception escapes.

Steps of the source: snapshot the ambient state; collect the population
keys (more than one raises — but the error message formats the undefined
global name `population_strs`, so the statement actually raises
`NameError`); resolve the labels and the seed (the ambient generator is
re-seeded in place when a seed is found); sort the variable names; build
one `ParameterSampler` per name; link the ring; store `rng_state`; only
then restore the caller's generator state.  Any exception after the
re-seeding therefore escapes with the ambient generator still holding the
chain's freshly seeded stream. -/
def construct (dists : PDict) (seed : Option Int) (ambient : RNGState) :
    Except PyErr Chain × RNGState :=
  let orig := ambient
  let popattrs := populationAttrsList.filter (fun a => psMem dists a)
  if 1 < popattrs.length then
    (.error (.nameError "population_strs"), ambient)
  else
    match resolvePopnames dists popattrs with
    | .error e => (.error e, ambient)
    | .ok popnames =>
      match resolveSeed dists seed with
      | .error e => (.error e, ambient)
      | .ok seedO =>
        let amb1 := match seedO with
          | some s => npSeed s
          | none => ambient
        let varnames := sortNames
          ((dists.map Prod.fst).filter (fun n => !(("seed" :: popattrs).contains n)))
        match buildNodes dists popnames varnames with
        | .error e => (.error e, amb1)
        | .ok nodes0 =>
          match linkNodes nodes0 with
          | .error e => (.error e, amb1)
          | .ok nodes =>
            (.ok ⟨⟨varnames, nodes⟩, nodes.map (fun nd => ⟨nd.initIdx, []⟩), amb1⟩,
             orig)

/-! ### Sampling dynamics

State-passing versions of `ParameterSampler._sample` / `__call__` and
`ParameterSetSampler.sample`.  During a public call the chain's stream is
installed in the (unique) live generator, so the transaction state is the
node states plus one `RNGState`. -/

/-- Mutable state during one public call: the node states (positions in
canonical `varnames` order) and the active generator. -/
structure SState where
  dyn : List NodeDyn
  rng : RNGState

def SState.idxAt (s : SState) (i : Nat) : Option Int :=
  (s.dyn.getD i default).sampled_idx

def SState.cacheAt (s : SState) (i : Nat) : List Value :=
  (s.dyn.getD i default).cache

def SState.setIdx (s : SState) (i : Nat) (v : Option Int) : SState :=
  { s with dyn := s.dyn.set i ⟨v, (s.dyn.getD i default).cache⟩ }

def SState.pushCache (s : SState) (i : Nat) (v : Value) : SState :=
  { s with dyn :=
      s.dyn.set i ⟨(s.dyn.getD i default).sampled_idx, (s.dyn.getD i default).cache ++ [v]⟩ }

def SState.setCache (s : SState) (i : Nat) (c : List Value) : SState :=
  { s with dyn := s.dyn.set i ⟨(s.dyn.getD i default).sampled_idx, c⟩ }

/-- The `previous` / `previous_offset` property pair: walk `_previous`
links, skipping nodes whose `sampled_idx` is `None` and accumulating the
skipped offsets; unbounded recursion, driven by fuel
(`RecursionError` when every node is constant). -/
def resolvePrev (cs : ChainStatic) (dyn : List NodeDyn) :
    Nat → Nat → Except PyErr (Nat × Int)
  | 0, _ => .error .recursionError
  | fuel + 1, i =>
    let nd := cs.nodes.getD i default
    match (dyn.getD nd.prev default).sampled_idx with
    | none =>
      match resolvePrev cs dyn fuel nd.prev with
      | .ok (j, off2) => .ok (j, nd.offset + off2)
      | .error e => .error e
    | some _ => .ok (nd.prev, nd.offset)

mutual

/-- `ParameterSampler._sample(sample_i)` of the node at position `i`.

Constant node: append one `get_sample()` value.  Sampled node: default
the target to `sampled_idx + 1`; if the target is ahead, drive the
predecessor loop, then increment `sampled_idx`, produce one value and
append it; otherwise do nothing. -/
def sampleRec (cs : ChainStatic) : Nat → Nat → Option Int → SState →
    Except PyErr Unit × SState
  | 0, _, _, s => (.error .recursionError, s)
  | fuel + 1, i, tgt, s =>
    match s.idxAt i with
    | none =>
      match (cs.nodes.getD i default).gen s.rng with
      | (.ok v, r2) => (.ok (), SState.pushCache { s with rng := r2 } i v)
      | (.error e, r2) => (.error e, { s with rng := r2 })
    | some idx =>
      let sample_i := tgt.getD (idx + 1)
      if idx < sample_i then
        match whileAdv cs fuel i sample_i s with
        | (.ok _, s1) =>
          match s1.idxAt i with
          | none => (.error (.typeError "unsupported operand for iadd"), s1)
          | some idx2 =>
            let s2 := s1.setIdx i (some (idx2 + 1))
            match (cs.nodes.getD i default).gen s2.rng with
            | (.ok v, r2) => (.ok (), SState.pushCache { s2 with rng := r2 } i v)
            | (.error e, r2) => (.error e, { s2 with rng := r2 })
        | (.error e, s1) => (.error e, s1)
      else (.ok (), s)

/-- `while self.previous.sampled_idx < sample_i + self.previous_offset:
self.previous._sample(sample_i + self.previous_offset)` — the properties
are re-resolved on every iteration, as in the source. -/
def whileAdv (cs : ChainStatic) : Nat → Nat → Int → SState →
    Except PyErr Unit × SState
  | 0, _, _, s => (.error .recursionError, s)
  | fuel + 1, i, sample_i, s =>
    match resolvePrev cs s.dyn (cs.nodes.length + 1) i with
    | .error e => (.error e, s)
    | .ok (j, off) =>
      match s.idxAt j with
      | none => (.error (.typeError "not supported between instances"), s)
      | some pidx =>
        if pidx < sample_i + off then
          match sampleRec cs fuel j (some (sample_i + off)) s with
          | (.ok _, s1) => whileAdv cs fuel i sample_i s1
          | (.error e, s1) => (.error e, s1)
        else (.ok (), s)

end

/-- `ParameterSampler.__call__`: fill once if the cache is empty, then
`popleft`. -/
def callSampler (cs : ChainStatic) (fuel : Nat) (i : Nat) (s : SState) :
    Except PyErr Value × SState :=
  match (if (s.cacheAt i).isEmpty then sampleRec cs fuel i none s else (.ok (), s)) with
  | (.ok _, s1) =>
    match s1.cacheAt i with
    | [] => (.error (.indexError "pop from an empty deque"), s1)
    | v :: rest => (.ok v, s1.setCache i rest)
  | (.error e, s1) => (.error e, s1)

/-- The argument of `ParameterSetSampler.sample`. -/
inductive SampleArg where
  | noarg
  | one (s : String)
  | many (l : List String)
deriving DecidableEq

/-- Result of `sample`: a single value, or a `ParameterSet` of values. -/
inductive SampleRes where
  | val (v : Value)
  | pset (l : List (String × Value))
deriving DecidableEq

/-- Insertion into the comprehension dict: a repeated name overwrites its
earlier value in place, new names append. -/
def dictInsert (l : List (String × Value)) (k : String) (v : Value) :
    List (String × Value) :=
  match l with
  | [] => [(k, v)]
  | (k0, v0) :: rest =>
    if k0 = k then (k0, v) :: rest else (k0, v0) :: dictInsert rest k v

/-- `self._samplers[name]` position lookup (`KeyError` for an unknown
name). -/
def samplerPos (cs : ChainStatic) (n : String) : Except PyErr Nat :=
  match cs.varnames.findIdx? (· = n) with
  | some i => .ok i
  | none => .error (.keyError n)

/-- `{name: self._samplers[name]() for name in varname}`, evaluated left
to right. -/
def sampleMany (cs : ChainStatic) (fuel : Nat) :
    List String → List (String × Value) → SState →
    Except PyErr (List (String × Value)) × SState
  | [], acc, s => (.ok acc, s)
  | n :: rest, acc, s =>
    match samplerPos cs n with
    | .error e => (.error e, s)
    | .ok i =>
      match callSampler cs fuel i s with
      | (.ok v, s1) => sampleMany cs fuel rest (dictInsert acc n v) s1
      | (.error e, s1) => (.error e, s1)

/-- The body of `ParameterSetSampler.sample` between the two generator
swaps. -/
def sampleBody (cs : ChainStatic) (fuel : Nat) (arg : SampleArg) (s : SState) :
    Except PyErr SampleRes × SState :=
  match arg with
  | .one n =>
    match samplerPos cs n with
    | .error e => (.error e, s)
    | .ok i =>
      match callSampler cs fuel i s with
      | (.ok v, s1) => (.ok (.val v), s1)
      | (.error e, s1) => (.error e, s1)
  | .many l =>
    match sampleMany cs fuel l [] s with
    | (.ok acc, s1) => (.ok (.pset acc), s1)
    | (.error e, s1) => (.error e, s1)
  | .noarg =>
    match sampleMany cs fuel cs.varnames [] s with
    | (.ok acc, s1) => (.ok (.pset acc), s1)
    | (.error e, s1) => (.error e, s1)

/-- `ParameterSetSampler.sample(varname)` run with the ambient generator
in state `ambient`: save the ambient state, install `self.rng_state`,
run the body, store the new stream into `self.rng_state` and restore the
ambient state.  There is no `try/finally`: when the body raises, the
statements after it never run, so the escaping call leaves the ambient
generator holding the chain's mid-transaction stream and `rng_state`
unchanged. -/
def sampleCall (ch : Chain) (fuel : Nat) (arg : SampleArg) (ambient : RNGState) :
    Except PyErr SampleRes × Chain × RNGState :=
  let orig := ambient
  match sampleBody ch.static fuel arg ⟨ch.dyn, ch.rng_state⟩ with
  | (.ok res, s1) => (.ok res, ⟨ch.static, s1.dyn, s1.rng⟩, orig)
  | (.error e, s1) => (.error e, ⟨ch.static, s1.dyn, ch.rng_state⟩, s1.rng)

/-- A driver: one `sample(name)` call per list element, threading the
chain and the ambient generator, collecting the returned values. -/
def runCalls (fuel : Nat) : Chain → RNGState → List String →
    Except PyErr (List (String × Value)) × Chain × RNGState
  | ch, amb, [] => (.ok [], ch, amb)
  | ch, amb, n :: rest =>
    match sampleCall ch fuel (.one n) amb with
    | (.ok (.val v), ch1, amb1) =>
      match runCalls fuel ch1 amb1 rest with
      | (.ok out, ch2, amb2) => (.ok ((n, v) :: out), ch2, amb2)
      | (.error e, ch2, amb2) => (.error e, ch2, amb2)
    | (.ok (.pset _), ch1, amb1) => (.error (.typeError "unexpected result"), ch1, amb1)
    | (.error e, ch1, amb1) => (.error e, ch1, amb1)

/-- `ParameterSetSampler.sampled_varnames`: the names whose sampler has a
non-`None` `sampled_idx`. -/
def sampledVarnames (ch : Chain) : List String :=
  (ch.static.varnames.zip ch.dyn).filterMap
    (fun p => if p.2.sampled_idx.isSome then some p.1 else none)

/-! ### Concrete inputs used by counterexamples, failing inputs and
witnesses -/

/-- A distinguishable ambient generator state (an unseeded stream). -/
def ambC : RNGState := ⟨none, 7, 3⟩

/-- `{x: {dist: <kind>, shape: [1], a: 2, scale: 1}}`. -/
def specUnknownKind (kind : String) : PDict :=
  [("x", .pset [("dist", .val (.str kind)), ("shape", .val (PyVal.ofList [.int 1])),
                ("a", .val (.int 2)), ("scale", .val (.int 1))])]

/-- The chain `construct (specUnknownKind kind) (some seed)` builds:
one sampler node for `x`, self-linked with offset `-1`, snapshot freshly
seeded. -/
def chainUnknownKind (kind : String) (seed : Int) : Chain :=
  ⟨⟨["x"], [⟨"x", some 0,
      fun r => popSample [("dist", .val (.str kind)), ("shape", .val (PyVal.ofList [.int 1])),
                          ("a", .val (.int 2)), ("scale", .val (.int 1))] .noPops
                 [PyVal.int 1] r,
      0, -1⟩]⟩,
   [⟨some 0, []⟩], npSeed seed⟩

/-- A spec with two population-label aliases (`population` and `labels`). -/
def specMultiPop : PDict :=
  [("population", .val (PyVal.ofList [.str "A"])),
   ("labels", .val (PyVal.ofList [.str "A"])),
   ("x", .val (.int 1))]

/-! ### C9 -/

/-- C9: `Transform` construction is idempotent on `Transform` instances —
`Transform(t)` returns exactly `t`, with `xname` and `expr` unmodified
(`__new__` returns the argument and the `isinstance` guard in `__init__`
skips re-initialisation). -/
theorem C9_transform_idempotent (t : Transform) :
    Transform.make (.inst t) = .ok t := rfl

/-! ### C10 -/

/-- C10: `set_previous` raises `ValueError` for every strictly positive
offset, leaving the node's predecessor link unchanged (the exception is
raised before the attributes are assigned), and succeeds exactly when the
offset is non-positive, storing the link. -/
theorem C10_set_previous (nd : NodeStatic) (p : Nat) (o : Int) :
    (0 < o → setPrevious nd p o = .error (.valueError "Offset cannot be positive.")) ∧
    (o ≤ 0 → setPrevious nd p o = .ok { nd with prev := p, offset := o }) := by
  constructor
  · intro h
    simp [setPrevious, h]
  · intro h
    simp [setPrevious, not_lt.mpr h]

/-- Witness for C10 at offset `1` (error) and offset `-1` (link stored). -/
theorem C10_set_previous_witness :
    setPrevious default 2 1 = .error (.valueError "Offset cannot be positive.") ∧
    setPrevious default 2 (-1) = .ok { (default : NodeStatic) with prev := 2, offset := -1 } :=
  ⟨(C10_set_previous default 2 1).1 (by norm_num),
   (C10_set_previous default 2 (-1)).2 (by norm_num)⟩

/-! ### C7 -/

/-- C7: a specification with more than one population-label alias fails at
construction — but the `raise ValueError(...)` statement formats the
undefined global name `population_strs`, so what actually escapes is a
`NameError`, not the intended `ValueError`/`ConfigError`.  The ambient
generator is untouched (the check precedes the seeding). -/
theorem C7_multi_population_keys (dists : PDict) (seed : Option Int) (amb : RNGState)
    (h : 1 < (populationAttrsList.filter (fun a => psMem dists a)).length) :
    construct dists seed amb = (.error (.nameError "population_strs"), amb) := by
  unfold construct
  simp [h]

/-- Witness for C7: `{population: [A], labels: [A], x: 1}`. -/
theorem C7_multi_population_keys_witness :
    1 < (populationAttrsList.filter (fun a => psMem specMultiPop a)).length ∧
    construct specMultiPop none ambC = (.error (.nameError "population_strs"), ambC) :=
  ⟨by decide, C7_multi_population_keys specMultiPop none ambC (by decide)⟩

/-! ### C5 -/

/-- C5: the constructor-supplied seed wins — for every specification and
non-`None` constructor seed the chain snapshot is the freshly seeded
stream for that seed, even when the spec has a `seed` entry; the in-spec
seed is used only when the constructor argument is omitted. -/
theorem C5_constructor_seed_overrides :
    (∀ (dists : PDict) (s : Int) (amb : RNGState) (ch : Chain) (amb2 : RNGState),
        construct dists (some s) amb = (.ok ch, amb2) → ch.rng_state = npSeed s) ∧
    (∀ (dists : PDict) (n : Int) (amb : RNGState) (ch : Chain) (amb2 : RNGState),
        psGet dists "seed" = some (.val (.int n)) →
        construct dists none amb = (.ok ch, amb2) → ch.rng_state = npSeed n) := by
  constructor
  · intro dists s amb ch amb2 h
    unfold construct at h
    simp only [resolveSeed] at h
    repeat' split at h
    all_goals simp_all
    obtain ⟨h1, -⟩ := h
    rw [← h1]
  · intro dists n amb ch amb2 hseed h
    unfold construct at h
    simp only [resolveSeed, hseed] at h
    repeat' split at h
    all_goals simp_all
    obtain ⟨h1, -⟩ := h
    rw [← h1]

/-- `{seed: 42, x: 1}` — spec with its own seed entry. -/
def specSeedBoth : PDict :=
  [("seed", .val (.int 42)), ("x", .val (.int 1))]

/-- The chain `construct specSeedBoth (some 100)` builds. -/
def chainSeedCtor : Chain :=
  ⟨⟨["x"], [⟨"x", none, fun r => (.ok (.arr (.int 1)), r), 0, -1⟩]⟩,
   [⟨none, []⟩], npSeed 100⟩

/-- The chain `construct specSeedBoth none` builds (in-spec seed used). -/
def chainSeedSpec : Chain :=
  ⟨⟨["x"], [⟨"x", none, fun r => (.ok (.arr (.int 1)), r), 0, -1⟩]⟩,
   [⟨none, []⟩], npSeed 42⟩

/-- Witness for C5: on `{seed: 42, x: 1}`, constructor seed `100` gives
snapshot `npSeed 100`; omitting it gives `npSeed 42`. -/
theorem C5_constructor_seed_overrides_witness :
    chainSeedCtor.rng_state = npSeed 100 ∧ chainSeedSpec.rng_state = npSeed 42 :=
  ⟨C5_constructor_seed_overrides.1 specSeedBoth 100 ambC chainSeedCtor ambC rfl,
   C5_constructor_seed_overrides.2 specSeedBoth 42 ambC chainSeedSpec ambC rfl rfl⟩

/-! ### C3 -/

/-- C3 counterexample: with `{x: {dist: weibull, …}}` — an unrecognized
distribution kind — construction succeeds (returning a chain and leaving
the ambient generator restored), and the `ValueError` only appears at the
first `sample()` call; the claim that construction itself fails before
any `sample()` is therefore false at this input. -/
theorem C3_eager_unknown_kind_counterexample :
    construct (specUnknownKind "weibull") (some 5) ambC =
      (.ok (chainUnknownKind "weibull" 5), ambC) ∧
    (sampleCall (chainUnknownKind "weibull" 5) 20 (.one "x") ambC).1 =
      .error (.valueError "Unrecognized distribution type weibull.") :=
  ⟨rfl, by decide⟩

/-- C3 amended: an unrecognized distribution-kind *value* passes
construction (only a descriptor with no `dist` key at all fails eagerly,
and then with the `AttributeError` raised while formatting the intended
`ValueError` message); the unknown-kind `ValueError` is raised at the
first draw of that variable. -/
theorem C3_unknown_kind_deferred (kind : String)
    (hk : kind ∉ ["normal", "expnormal", "exponential", "exp", "gamma"])
    (seed : Int) (amb : RNGState) :
    construct (specUnknownKind kind) (some seed) amb =
      (.ok (chainUnknownKind kind seed), amb) ∧
    (sampleCall (chainUnknownKind kind seed) 20 (.one "x") amb).1 =
      .error (.valueError ("Unrecognized distribution type " ++ kind ++ ".")) ∧
    mkSampler "x" (.pset [("shape", .val (PyVal.ofList [.int 1]))]) none =
      .error (.attributeError "dist") := by
  have h1 : ¬(kind = "normal") := by simp_all
  have h2 : ¬(kind = "expnormal") := by simp_all
  have h3 : ¬(kind = "exponential") := by simp_all
  have h4 : ¬(kind = "exp") := by simp_all
  have h5 : ¬(kind = "gamma") := by simp_all
  refine ⟨rfl, ?_, rfl⟩
  simp [sampleCall, sampleBody, samplerPos, callSampler, chainUnknownKind,
        SState.cacheAt, SState.idxAt, SState.setIdx, SState.pushCache,
        sampleRec, whileAdv, resolvePrev, popSample, popGetAttr, psGet,
        npDraw, h1, h2, h3, h4, h5, PEntry.show, PyVal.show]

/-- Witness for C3's amended theorem at `kind = "weibull"`. -/
theorem C3_unknown_kind_deferred_witness :
    construct (specUnknownKind "weibull") (some 7) ambC =
      (.ok (chainUnknownKind "weibull" 7), ambC) ∧
    (sampleCall (chainUnknownKind "weibull" 7) 20 (.one "x") ambC).1 =
      .error (.valueError ("Unrecognized distribution type " ++ "weibull" ++ ".")) ∧
    mkSampler "x" (.pset [("shape", .val (PyVal.ofList [.int 1]))]) none =
      .error (.attributeError "dist") :=
  C3_unknown_kind_deferred "weibull" (by decide) 7 ambC

/-! ### C2 -/

/-- C2: the ambient generator is *not* restored on the exceptional exit
path.  Failing input: `{x: {dist: weibull, …}}` with seed `5` and ambient
state `ambC`; the draw inside `sample('x')` raises `ValueError`, and
because `ParameterSetSampler.sample` has no `try/finally`, the call
leaves the ambient generator holding the chain's freshly seeded stream
`npSeed 5` instead of restoring `ambC` — contradicting the specified
restore-on-every-exit-path contract. -/
theorem C2_ambient_left_mid_transaction :
    construct (specUnknownKind "weibull") (some 5) ambC =
      (.ok (chainUnknownKind "weibull" 5), ambC) ∧
    (sampleCall (chainUnknownKind "weibull" 5) 20 (.one "x") ambC).1 =
      .error (.valueError "Unrecognized distribution type weibull.") ∧
    (sampleCall (chainUnknownKind "weibull" 5) 20 (.one "x") ambC).2.2 = npSeed 5 ∧
    npSeed 5 ≠ ambC :=
  ⟨rfl, by decide, by decide, by decide⟩

/-! ### C8 -/

/-- The shape loop processes its components left to right. -/
theorem buildShapes_append (name : String) (pn : Option (List String))
    (l1 l2 : List PyVal) (shapes : List (List PyVal)) (pat : List Bool) :
    buildShapes name pn (l1 ++ l2) shapes pat =
      match buildShapes name pn l1 shapes pat with
      | .ok sp => buildShapes name pn l2 sp.1 sp.2
      | .error e => .error e := by
  induction l1 generalizing shapes pat with
  | nil => rfl
  | cons c rest ih =>
    cases c with
    | str s =>
      simp only [List.cons_append, buildShapes]
      cases pn with
      | none => rfl
      | some pn' =>
        by_cases hl : (pySplit s "+").length = pn'.length
        · simp only [hl, if_true]
          cases intPieces (pySplit s "+") with
          | error e => rfl
          | ok sizes => exact ih _ _
        · simp only [hl, if_false]
    | int n => exact ih _ _
    | nil => exact ih _ _
    | cons h t => exact ih _ _

/-- The sampler dict is built name by name, left to right: a clean prefix
followed by a failing suffix fails with the suffix's error. -/
theorem buildNodes_append_error (dists : PDict) (pn : Option (List String))
    (l1 l2 : List String) (nds : List NodeStatic) (e : PyErr)
    (h1 : buildNodes dists pn l1 = .ok nds)
    (h2 : buildNodes dists pn l2 = .error e) :
    buildNodes dists pn (l1 ++ l2) = .error e := by
  induction l1 generalizing nds with
  | nil => simpa using h2
  | cons n rest ih =>
    simp only [List.cons_append, buildNodes] at h1 ⊢
    repeat' split at h1
    all_goals simp_all

/-- `ParameterSampler.__init__` fails with the count-naming `ValueError`
on the first population-partition shape component whose part count
differs from the population count (all earlier components having
processed cleanly). -/
theorem mkSampler_shape_mismatch (name : String) (dp : PDict) (pn : List String)
    (shapeV : PyVal) (pre post : List PyVal) (s : String)
    (sp : List (List PyVal) × List Bool)
    (hdist : psMem dp "dist" = true)
    (hshape : psGet dp "shape" = some (.val shapeV))
    (hiter : shapeV.iter = some (pre ++ PyVal.str s :: post))
    (hpre : buildShapes name (some pn) pre [[]] [] = .ok sp)
    (hbad : (pySplit s "+").length ≠ pn.length) :
    mkSampler name (.pset dp) (some pn) =
      .error (.valueError (shapeMismatchMsg name (pySplit s "+").length pn.length)) := by
  unfold mkSampler
  simp only [hdist, if_true, hshape, hiter]
  rw [buildShapes_append, hpre]
  simp only [buildShapes, hbad, if_false]

/-- C8: for a specification whose variable `name` declares a
population-partition shape string whose `'+'`-separated part count
differs from the number of declared populations — with the variables
preceding it in canonical order constructing cleanly — chain construction
fails with the configuration `ValueError` whose message names both the
part count and the population count. -/
theorem C8_shape_population_mismatch (dists : PDict) (seed : Option Int)
    (amb : RNGState) (popA : List String) (pn : List String)
    (seedO : Option Int) (pre' post' : List String) (name : String)
    (nds : List NodeStatic) (dp : PDict) (shapeV : PyVal)
    (pre post : List PyVal) (s : String) (sp : List (List PyVal) × List Bool)
    (hpm : populationAttrsList.filter (fun a => psMem dists a) = popA)
    (hpa : popA.length ≤ 1)
    (hpop : resolvePopnames dists popA = .ok (some pn))
    (hseed : resolveSeed dists seed = .ok seedO)
    (hvn : sortNames ((dists.map Prod.fst).filter
             (fun n => !(("seed" :: popA).contains n))) = pre' ++ name :: post')
    (hpreB : buildNodes dists (some pn) pre' = .ok nds)
    (hlook : psGet dists name = some (.pset dp))
    (hdist : psMem dp "dist" = true)
    (hshape : psGet dp "shape" = some (.val shapeV))
    (hiter : shapeV.iter = some (pre ++ PyVal.str s :: post))
    (hpre : buildShapes name (some pn) pre [[]] [] = .ok sp)
    (hbad : (pySplit s "+").length ≠ pn.length) :
    (construct dists seed amb).1 =
      .error (.valueError (shapeMismatchMsg name (pySplit s "+").length pn.length)) := by
  unfold construct
  rw [hpm]
  have herr : buildNodes dists (some pn) (name :: post') =
      .error (.valueError (shapeMismatchMsg name (pySplit s "+").length pn.length)) := by
    simp only [buildNodes, hlook,
      mkSampler_shape_mismatch name dp pn shapeV pre post s sp hdist hshape hiter hpre hbad]
  simp only [not_lt.mpr hpa, if_false, hpop, hseed, hvn,
    buildNodes_append_error dists (some pn) pre' (name :: post') nds _ hpreB herr]

/-- The descriptor of `x` in the C8 witness spec. -/
def dpShapeMM : PDict :=
  [("dist", .val (.str "normal")), ("shape", .val (PyVal.ofList [.str "2+3"])),
   ("loc", .val (.int 0)), ("scale", .val (.int 1))]

/-- `{labels: [A, B, C], x: {dist: normal, shape: ("2+3",), …}}`. -/
def specShapeMM : PDict :=
  [("labels", .val (PyVal.ofList [.str "A", .str "B", .str "C"])),
   ("x", .pset dpShapeMM)]

/-- Witness for C8: three populations `A`, `B`, `C` against shape
`("2+3",)` — the message names part count 2 and population count 3. -/
theorem C8_shape_population_mismatch_witness :
    (construct specShapeMM none ambC).1 =
      .error (.valueError (shapeMismatchMsg "x" (pySplit "2+3" "+").length
        ["A", "B", "C"].length)) :=
  C8_shape_population_mismatch specShapeMM none ambC ["labels"] ["A", "B", "C"]
    none [] [] "x" [] dpShapeMM (PyVal.ofList [.str "2+3"]) [] [] "2+3" ([[]], [])
    (by decide) (by decide) (by decide) rfl (by decide) rfl rfl
    (by decide) rfl (by decide) rfl (by decide)

/-! ### C4 -/

/-- The same variable descriptor with its `transform` entry removed (the
untransformed underlying distribution). -/
def stripTransform (dp : PDict) : PDict :=
  dp.filter (fun kv => kv.1 != "transform")

theorem psGet_strip_ne (dp : PDict) (k : String) (hk : k ≠ "transform") :
    psGet (stripTransform dp) k = psGet dp k := by
  induction dp with
  | nil => rfl
  | cons kv rest ih =>
    obtain ⟨k0, v0⟩ := kv
    simp only [stripTransform, List.filter_cons] at *
    by_cases h0 : k0 = "transform"
    · subst h0
      simp only [bne_self_eq_false, Bool.false_eq_true, if_false]
      rw [ih]
      simp [psGet, List.lookup, show (k == "transform") = false from by simpa using hk]
    · have hb : (k0 != "transform") = true := by simpa using h0
      simp only [hb, if_true]
      simp only [psGet, List.lookup]
      by_cases hkk : (k == k0) = true
      · simp [hkk]
      · simp only [Bool.not_eq_true] at hkk
        simp only [hkk]
        exact ih

theorem psGet_strip_self (dp : PDict) :
    psGet (stripTransform dp) "transform" = none := by
  induction dp with
  | nil => rfl
  | cons kv rest ih =>
    obtain ⟨k0, v0⟩ := kv
    simp only [stripTransform, List.filter_cons] at *
    by_cases h0 : k0 = "transform"
    · subst h0
      simpa using ih
    · have hb : (k0 != "transform") = true := by simpa using h0
      simp only [hb, if_true]
      simp only [psGet, List.lookup]
      have hkb : ("transform" == k0) = false := by simpa using Ne.symm h0
      simp only [hkb]
      exact ih

theorem popGetAttr_strip (dp : PDict) (key : PopKey) (attr : String)
    (hkey : key ≠ .label "transform") (hattr : attr ≠ "transform") :
    popGetAttr (stripTransform dp) key attr = popGetAttr dp key attr := by
  cases key with
  | noPops => simp [popGetAttr, psGet_strip_ne dp attr hattr]
  | label k =>
    have hk : k ≠ "transform" := by
      intro h
      exact hkey (by rw [h])
    simp [popGetAttr, psGet_strip_ne dp k hk, psGet_strip_ne dp attr hattr]

theorem popSample_strip (dp : PDict) (key : PopKey) (size : List PyVal)
    (r : RNGState) (hkey : key ≠ .label "transform") :
    popSample (stripTransform dp) key size r = popSample dp key size r := by
  unfold popSample
  rw [popGetAttr_strip dp key "dist" hkey (by decide),
      popGetAttr_strip dp key "loc" hkey (by decide),
      popGetAttr_strip dp key "scale" hkey (by decide),
      popGetAttr_strip dp key "a" hkey (by decide),
      popGetAttr_strip dp key "factor" hkey (by decide),
      psGet_strip_ne dp "dist" (by decide)]

/-- A comma-joined population-pair key can never collide with the literal
name `transform`. -/
theorem pairKey_ne_transform (p1 p2 : String) : p1 ++ "," ++ p2 ≠ "transform" := by
  intro h
  have hd := congrArg String.data h
  simp only [String.data_append] at hd
  have hmem : ',' ∈ p1.data ++ [','] ++ p2.data := by simp
  rw [hd] at hmem
  exact absurd hmem (by decide)

theorem mapDraws_congr {α : Type} (f g : α → RNGState → Except PyErr Value × RNGState)
    (zs : List α) (h : ∀ z ∈ zs, ∀ r, f z r = g z r) :
    mapDraws f zs = mapDraws g zs := by
  induction zs with
  | nil => rfl
  | cons z rest ih =>
    funext r
    simp only [mapDraws, h z (by simp) r,
      ih (fun z2 hz2 r2 => h z2 (List.mem_cons_of_mem _ hz2) r2)]

theorem mkGetSample_strip (dp : PDict) (pn : Option (List String))
    (shapes : List (List PyVal)) (pat : List Bool)
    (hpn : ∀ l, pn = some l → "transform" ∉ l) :
    mkGetSample (stripTransform dp) pn shapes pat = mkGetSample dp pn shapes pat := by
  have hone : ∀ (l : List String), pn = some l →
      mapDraws (fun (pz : String × List PyVal) r =>
          popSample (stripTransform dp) (.label pz.1) pz.2 r) (l.zip shapes) =
      mapDraws (fun (pz : String × List PyVal) r =>
          popSample dp (.label pz.1) pz.2 r) (l.zip shapes) := by
    intro l hl
    apply mapDraws_congr
    intro pz hpz r
    refine popSample_strip dp _ _ r ?_
    intro hcontra
    exact hpn l hl ((PopKey.label.inj hcontra) ▸ (List.of_mem_zip hpz).1)
  have hpair : ∀ (l : List String), pn = some l →
      mapDraws (fun (p1 : Nat × String) rr =>
          match mapDraws (fun (p2 : Nat × String) r3 =>
              popSample (stripTransform dp) (.label (p1.2 ++ "," ++ p2.2))
                (shapes.getD (p1.1 * l.length + p2.1) []) r3) l.enum rr with
          | (.ok row, r4) => (Except.ok (Value.ofList row), r4)
          | (.error e, r4) => (.error e, r4)) l.enum =
      mapDraws (fun (p1 : Nat × String) rr =>
          match mapDraws (fun (p2 : Nat × String) r3 =>
              popSample dp (.label (p1.2 ++ "," ++ p2.2))
                (shapes.getD (p1.1 * l.length + p2.1) []) r3) l.enum rr with
          | (.ok row, r4) => (Except.ok (Value.ofList row), r4)
          | (.error e, r4) => (.error e, r4)) l.enum := by
    intro l _
    apply mapDraws_congr
    intro p1 _ rr
    have hinner : mapDraws (fun (p2 : Nat × String) r3 =>
          popSample (stripTransform dp) (.label (p1.2 ++ "," ++ p2.2))
            (shapes.getD (p1.1 * l.length + p2.1) []) r3) l.enum =
        mapDraws (fun (p2 : Nat × String) r3 =>
          popSample dp (.label (p1.2 ++ "," ++ p2.2))
            (shapes.getD (p1.1 * l.length + p2.1) []) r3) l.enum := by
      apply mapDraws_congr
      intro p2 _ r3
      refine popSample_strip dp _ _ r3 ?_
      intro hc
      exact pairKey_ne_transform p1.2 p2.2 (PopKey.label.inj hc)
    rw [hinner]
  unfold mkGetSample
  by_cases hall : (pat.all (fun b => b = false)) = true
  · rw [if_pos hall, if_pos hall]
    congr 1
    funext r
    exact popSample_strip dp .noPops _ r (fun hc => PopKey.noConfusion hc)
  · rw [if_neg hall, if_neg hall]
    rcases pat with _ | ⟨b1, _ | ⟨b2, _ | ⟨b3, bs⟩⟩⟩
    · rfl
    · cases b1
      · rfl
      · cases pn with
        | none => rfl
        | some l => simp only [hone l rfl]
    · cases b1 <;> cases b2
      · rfl
      · cases pn with
        | none => rfl
        | some l => simp only [hone l rfl]
      · cases pn with
        | none => rfl
        | some l => simp only [hone l rfl]
      · cases pn with
        | none => rfl
        | some l => simp only [hpair l rfl]
    · cases pn <;> cases b1 <;> cases b2 <;> cases b3 <;> rfl

/-- C4: for every variable declaring a transform, the node's generation
function is the untransformed node's generation function (same
descriptor with the `transform` entry removed) post-composed with the
`back` expression through the restricted evaluator — every raw draw is
passed through the inverse before being cached or returned.  With back
expression `y -> np.exp(y)` the returned value is `np.exp(r)` applied to
the raw value bit-for-bit; a bare `exp(y)` is *not* resolvable (only the
`np`/`sp` namespaces are), which is what the counterexample shows. -/
theorem C4_transform_applied_to_raw (name : String) (dp : PDict)
    (pn : Option (List String)) (tp : PDict) (backs : String) (inverse : Transform)
    (node rawNode : NodeStatic)
    (hpn : ∀ l, pn = some l → "transform" ∉ l)
    (htr : psGet dp "transform" = some (.pset tp))
    (hback : psGet tp "back" = some (.val (.str backs)))
    (hinv : Transform.make (.desc backs) = .ok inverse)
    (h1 : mkSampler name (.pset dp) pn = .ok node)
    (h2 : mkSampler name (.pset (stripTransform dp)) pn = .ok rawNode) :
    (∀ r, node.gen r =
      (match rawNode.gen r with
       | (.ok v, r2) => (inverse.call v, r2)
       | (.error e, r2) => (.error e, r2))) ∧
    (∀ v, Transform.call ⟨"y", "np.exp(y)"⟩ v = .ok (.capp "np.exp" v)) := by
  refine ⟨?_, fun v => rfl⟩
  have hdist : psMem dp "dist" = true := by
    by_contra hnd
    simp only [Bool.not_eq_true] at hnd
    simp [mkSampler, hnd] at h1
  have hdist2 : psMem (stripTransform dp) "dist" = true := by
    simpa [psMem, psGet_strip_ne dp "dist" (by decide)] using hdist
  have hshape2 : psGet (stripTransform dp) "shape" = psGet dp "shape" :=
    psGet_strip_ne dp "shape" (by decide)
  rcases hshape : psGet dp "shape" with _ | ent
  · simp only [mkSampler, hdist, if_true, hshape, eq_self_iff_true] at h1
    simp at h1
  simp only [mkSampler, hdist, hdist2, if_true, hshape2, hshape, eq_self_iff_true] at h1 h2
  rcases ent with v | ps
  · rcases hit : v.iter with _ | comps
    · simp only [hit] at h1
      simp at h1
    · simp only [hit] at h1 h2
      rcases hbs : buildShapes name pn comps [[]] [] with e | ⟨shs, pts⟩
      · simp only [hbs] at h1
        simp at h1
      simp only [hbs, mkGetSample_strip dp pn shs pts hpn] at h1 h2
      rcases hg : mkGetSample dp pn shs pts with e | rawGen
      · simp only [hg] at h1
        simp at h1
      simp only [hg, psGet_strip_self dp, htr, hback, hinv] at h1 h2
      simp only [Except.ok.injEq] at h1 h2
      intro r
      rw [← h1, ← h2]
  · rcases hbs : buildShapes name pn (ps.map (fun kv => PyVal.str kv.1)) [[]] []
        with e | ⟨shs, pts⟩
    · simp only [hbs] at h1
      simp at h1
    simp only [hbs, mkGetSample_strip dp pn shs pts hpn] at h1 h2
    rcases hg : mkGetSample dp pn shs pts with e | rawGen
    · simp only [hg] at h1
      simp at h1
    simp only [hg, psGet_strip_self dp, htr, hback, hinv] at h1 h2
    simp only [Except.ok.injEq] at h1 h2
    intro r
    rw [← h1, ← h2]

/-- Run `sample(name)` once on a freshly constructed chain, keeping only
the call's result. -/
def sampleFirst (c : Except PyErr Chain × RNGState) (fuel : Nat) (n : String)
    (amb : RNGState) : Except PyErr SampleRes :=
  match c.1 with
  | .ok ch => (sampleCall ch fuel (.one n) amb).1
  | .error e => .error e

/-- The transform sub-descriptor of the spec's documented round-trip
example: `{name: logx, to: "x -> log(x)", back: "y -> exp(y)"}`. -/
def tpExpBare : PDict :=
  [("name", .val (.str "logx")), ("to", .val (.str "x -> log(x)")),
   ("back", .val (.str "y -> exp(y)"))]

/-- `{x: {dist: normal, shape: [1], loc: 0, scale: 1, transform: …}}`
with the bare `exp`/`log` transform expressions. -/
def specTrExpBare : PDict :=
  [("x", .pset [("dist", .val (.str "normal")), ("shape", .val (PyVal.ofList [.int 1])),
                ("loc", .val (.int 0)), ("scale", .val (.int 1)),
                ("transform", .pset tpExpBare)])]

/-- C4 counterexample: with back expression `y -> exp(y)` — exactly the
spec's round-trip example — the first draw does *not* return `exp(r)`:
the bare name `exp` is not among simpleeval's default functions and only
`np`/`sp` are provided as namespaces, so the call raises
`FunctionNotDefined` instead. -/
theorem C4_bare_exp_counterexample :
    sampleFirst (construct specTrExpBare (some 1) ambC) 20 "x" ambC =
      .error (.functionNotDefined "exp") := by decide

/-- The transform-bearing descriptor used by the C4 witness
(`back: "y -> np.exp(y)"`). -/
def tpNp : PDict :=
  [("name", .val (.str "logx")), ("to", .val (.str "x -> np.log(x)")),
   ("back", .val (.str "y -> np.exp(y)"))]

def dpTrNp : PDict :=
  [("dist", .val (.str "normal")), ("shape", .val (PyVal.ofList [.int 1])),
   ("loc", .val (.int 0)), ("scale", .val (.int 1)), ("transform", .pset tpNp)]

/-- The node `ParameterSampler("x", dpTrNp)` builds (before linking). -/
def nodeTrNp : NodeStatic :=
  ⟨"x", some 0,
    fun r =>
      match popSample dpTrNp .noPops [PyVal.int 1] r with
      | (.ok v, r2) => (Transform.call ⟨"y", "np.exp(y)"⟩ v, r2)
      | (.error e, r2) => (.error e, r2),
    0, 0⟩

/-- The node built from the same descriptor without its transform. -/
def nodeRawNp : NodeStatic :=
  ⟨"x", some 0, fun r => popSample (stripTransform dpTrNp) .noPops [PyVal.int 1] r, 0, 0⟩

/-- Witness for C4 at the `np.exp` transform. -/
theorem C4_transform_applied_to_raw_witness :
    (∀ r, nodeTrNp.gen r =
      (match nodeRawNp.gen r with
       | (.ok v, r2) => (Transform.call ⟨"y", "np.exp(y)"⟩ v, r2)
       | (.error e, r2) => (.error e, r2))) ∧
    (∀ v, Transform.call ⟨"y", "np.exp(y)"⟩ v = .ok (.capp "np.exp" v)) :=
  C4_transform_applied_to_raw "x" dpTrNp none tpNp "y -> np.exp(y)"
    ⟨"y", "np.exp(y)"⟩ nodeTrNp nodeRawNp
    (fun l hl => by cases hl) rfl rfl (by decide) rfl rfl

/-! ### C1 — canonical draw order and determinism

The sampler ring forces a canonical generation order: the `r`-th active
(non-constant) node in name order generates its `g`-th value as the
`g·m + r`-th draw of the chain's private stream (`m` = number of active
nodes), independent of the order in which callers request variables.
The development below defines that canonical stream and proves that every
reachable chain state is a "family" state fully described by the number
of draws made so far and the per-node consumption counts. -/

/-- Is the node at position `p` a sampled (non-constant) node? -/
def actB (cs : ChainStatic) (p : Nat) : Bool :=
  ((cs.nodes.getD p default).initIdx).isSome

/-- Positions of the active nodes, in canonical order. -/
def arsOf (cs : ChainStatic) : List Nat :=
  (List.range cs.nodes.length).filter (actB cs)

/-- The number of active nodes. -/
def mOf (cs : ChainStatic) : Nat := (arsOf cs).length

/-- The node at a position. -/
def nodeAt (cs : ChainStatic) (p : Nat) : NodeStatic := cs.nodes.getD p default

/-- The position of the active node of rank `r`. -/
def rankPos (cs : ChainStatic) (r : Nat) : Nat := (arsOf cs).getD r 0

/-- The generation function of the active node of rank `r`. -/
def genOf (cs : ChainStatic) (r : Nat) :
    RNGState → Except PyErr Value × RNGState :=
  (nodeAt cs (rankPos cs r)).gen

/-- The chain's private generator stream: state after `t` draws, starting
from the construction snapshot `r0`, drawing in canonical round-robin
order. -/
def sState (cs : ChainStatic) (r0 : RNGState) : Nat → RNGState
  | 0 => r0
  | t + 1 => (genOf cs (t % mOf cs) (sState cs r0 t)).2

/-- The `t`-th drawn value of the canonical stream. -/
def sVal (cs : ChainStatic) (r0 : RNGState) (t : Nat) : Except PyErr Value :=
  (genOf cs (t % mOf cs) (sState cs r0 t)).1

/-- After `t` total draws in round-robin order over `m` nodes, the number
of draws node `r` has made. -/
def rounds (m t r : Nat) : Nat := t / m + if r < t % m then 1 else 0

theorem rounds_decomp (m a b r : Nat) (hm : 0 < m) (hb : b < m) :
    rounds m (m * a + b) r = a + if r < b then 1 else 0 := by
  unfold rounds
  rw [Nat.mul_add_div hm, Nat.mul_add_mod, Nat.div_eq_of_lt hb, Nat.mod_eq_of_lt hb]
  omega

/-- A well-formed (as-constructed) chain: the ring links of
`ParameterSetSampler.__init__`, constant nodes with pure constant
generators, and sampled nodes starting at index 0. -/
structure WFChain (cs : ChainStatic) : Prop where
  npos : 0 < cs.nodes.length
  lenv : cs.varnames.length = cs.nodes.length
  prev0 : (nodeAt cs 0).prev = cs.nodes.length - 1
  off0 : (nodeAt cs 0).offset = -1
  previ : ∀ i, 0 < i → i < cs.nodes.length → (nodeAt cs i).prev = i - 1
  offi : ∀ i, 0 < i → i < cs.nodes.length → (nodeAt cs i).offset = 0
  activeInit : ∀ p, p < cs.nodes.length → actB cs p = true →
    (nodeAt cs p).initIdx = some 0
  constGen : ∀ p, p < cs.nodes.length → actB cs p = false →
    ∃ v, (nodeAt cs p).gen = fun r => (.ok (.arr v), r)

/-- Facts about the active-position list. -/
theorem arsOf_sorted (cs : ChainStatic) : (arsOf cs).Pairwise (· < ·) :=
  List.Pairwise.filter _ (List.pairwise_lt_range _)

theorem arsOf_mem (cs : ChainStatic) (p : Nat) :
    p ∈ arsOf cs ↔ p < cs.nodes.length ∧ actB cs p = true := by
  simp [arsOf, List.mem_filter, List.mem_range]

theorem rankPos_lt (cs : ChainStatic) (r : Nat) (hr : r < mOf cs) :
    rankPos cs r < cs.nodes.length ∧ actB cs (rankPos cs r) = true := by
  rw [← arsOf_mem]
  unfold rankPos
  rw [List.getD_eq_getElem _ _ hr]
  exact List.getElem_mem _

theorem rankPos_strictMono (cs : ChainStatic) (r1 r2 : Nat) (h12 : r1 < r2)
    (h2 : r2 < mOf cs) : rankPos cs r1 < rankPos cs r2 := by
  unfold rankPos
  rw [List.getD_eq_getElem _ _ (h12.trans h2), List.getD_eq_getElem _ _ h2]
  exact List.pairwise_iff_getElem.mp (arsOf_sorted cs) r1 r2 (h12.trans h2) h2 h12

/-- No active position strictly between consecutive active ranks. -/
theorem no_active_between (cs : ChainStatic) (r : Nat) (hr : r + 1 < mOf cs)
    (q : Nat) (h1 : rankPos cs r < q) (h2 : q < rankPos cs (r + 1))
    (hqN : q < cs.nodes.length) : actB cs q = false := by
  by_contra hq
  simp only [Bool.not_eq_false] at hq
  have hmem : q ∈ arsOf cs := (arsOf_mem cs q).mpr ⟨hqN, hq⟩
  obtain ⟨j, hj, hjq⟩ := List.getElem_of_mem hmem
  have hgj : rankPos cs j = q := by
    unfold rankPos
    rw [List.getD_eq_getElem _ _ hj, hjq]
  rcases lt_trichotomy j (r + 1) with hlt | heq | hgt
  · rcases Nat.lt_succ_iff_lt_or_eq.mp hlt with hlt2 | heq2
    · have := rankPos_strictMono cs j r hlt2 (Nat.lt_of_succ_lt hr)
      omega
    · subst heq2
      omega
  · subst heq
    omega
  · have := rankPos_strictMono cs (r + 1) j hgt hj
    omega

/-- No active position below the first active rank. -/
theorem no_active_below (cs : ChainStatic) (hm : 0 < mOf cs) (q : Nat)
    (h : q < rankPos cs 0) (hqN : q < cs.nodes.length) : actB cs q = false := by
  by_contra hq
  simp only [Bool.not_eq_false] at hq
  have hmem : q ∈ arsOf cs := (arsOf_mem cs q).mpr ⟨hqN, hq⟩
  obtain ⟨j, hj, hjq⟩ := List.getElem_of_mem hmem
  have hgj : rankPos cs j = q := by
    unfold rankPos
    rw [List.getD_eq_getElem _ _ hj, hjq]
  rcases Nat.eq_zero_or_pos j with h0 | hpos
  · subst h0
    omega
  · have := rankPos_strictMono cs 0 j hpos hj
    omega

/-- No active position above the last active rank. -/
theorem no_active_above (cs : ChainStatic) (hm : 0 < mOf cs) (q : Nat)
    (h : rankPos cs (mOf cs - 1) < q) (hqN : q < cs.nodes.length) :
    actB cs q = false := by
  by_contra hq
  simp only [Bool.not_eq_false] at hq
  have hmem : q ∈ arsOf cs := (arsOf_mem cs q).mpr ⟨hqN, hq⟩
  obtain ⟨j, hj, hjq⟩ := List.getElem_of_mem hmem
  have hgj : rankPos cs j = q := by
    unfold rankPos
    rw [List.getD_eq_getElem _ _ hj, hjq]
  have hmlen : (arsOf cs).length = mOf cs := rfl
  rcases Nat.lt_or_ge j (mOf cs - 1) with hlt | hge
  · have := rankPos_strictMono cs j (mOf cs - 1) hlt (by omega)
    omega
  · have hj2 : j = mOf cs - 1 := by omega
    subst hj2
    omega

/-- Active ranks at distinct positions. -/
theorem rankPos_inj (cs : ChainStatic) (r1 r2 : Nat) (h1 : r1 < mOf cs)
    (h2 : r2 < mOf cs) (h : rankPos cs r1 = rankPos cs r2) : r1 = r2 := by
  rcases lt_trichotomy r1 r2 with hlt | heq | hgt
  · have := rankPos_strictMono cs r1 r2 hlt h2
    omega
  · exact heq
  · have := rankPos_strictMono cs r2 r1 hgt h1
    omega

/-- `getD`/`set` bookkeeping. -/
theorem getD_set_self {α : Type} [Inhabited α] (l : List α) (i : Nat) (a : α)
    (h : i < l.length) : (l.set i a).getD i default = a := by
  rw [List.getD_eq_getElem?_getD, List.getElem?_set_eq_of_lt a h]
  rfl

theorem getD_set_ne {α : Type} [Inhabited α] (l : List α) (i j : Nat) (a : α)
    (h : i ≠ j) : (l.set i a).getD j default = l.getD j default := by
  rw [List.getD_eq_getElem?_getD, List.getElem?_set_ne h, ← List.getD_eq_getElem?_getD]

/-- The family invariant: a reachable chain state is fully described by
the total number of canonical draws `t` and the per-rank consumption
counts `cons`.  Every constant node is idle; the active node of rank `r`
has made `rounds m t r` draws, its cache holds its generated-but-unpopped
values (the `k`-th being the canonical stream value of its
`cons r + k`-th draw), and the live generator is the canonical stream
state after `t` draws. -/
structure Fam (cs : ChainStatic) (r0 : RNGState) (t : Nat) (cons : Nat → Nat)
    (s : SState) : Prop where
  len : s.dyn.length = cs.nodes.length
  constPart : ∀ p, p < cs.nodes.length → actB cs p = false →
    s.dyn.getD p default = ⟨none, []⟩
  activeIdx : ∀ r, r < mOf cs →
    (s.dyn.getD (rankPos cs r) default).sampled_idx =
      some ((rounds (mOf cs) t r : Nat) : Int)
  cacheLen : ∀ r, r < mOf cs →
    (s.dyn.getD (rankPos cs r) default).cache.length =
      rounds (mOf cs) t r - cons r
  cacheVals : ∀ r, r < mOf cs → ∀ k v,
    (s.dyn.getD (rankPos cs r) default).cache.get? k = some v →
    sVal cs r0 ((cons r + k) * mOf cs + r) = .ok v
  consLe : ∀ r, r < mOf cs → cons r ≤ rounds (mOf cs) t r
  rng : s.rng = sState cs r0 t

/-- The idx-pattern ("which nodes are constant") that the `previous`
resolution needs: it is implied by the invariant. -/
theorem Fam.idxNone {cs r0 t cons s} (h : Fam cs r0 t cons s) (p : Nat)
    (hp : p < cs.nodes.length) :
    (s.dyn.getD p default).sampled_idx = none ↔ actB cs p = false := by
  constructor
  · intro hnone
    by_contra hact
    simp only [Bool.not_eq_false] at hact
    have hmem : p ∈ arsOf cs := (arsOf_mem cs p).mpr ⟨hp, hact⟩
    obtain ⟨j, hj, hjq⟩ := List.getElem_of_mem hmem
    have hrp : rankPos cs j = p := by
      unfold rankPos
      rw [List.getD_eq_getElem _ _ hj, hjq]
    have hidx := h.activeIdx j hj
    rw [hrp, hnone] at hidx
    simp at hidx
  · intro hconst
    rw [h.constPart p hp hconst]

/-- The constant/sampled pattern the `previous` walk reads. -/
def IdxPat (cs : ChainStatic) (dyn : List NodeDyn) : Prop :=
  ∀ p, p < cs.nodes.length →
    ((dyn.getD p default).sampled_idx = none ↔ actB cs p = false)

theorem Fam.idxPat {cs r0 t cons s} (h : Fam cs r0 t cons s) :
    IdxPat cs s.dyn := fun p hp => h.idxNone p hp

/-- Walking the ring downward (no wrap): from `i` the walk skips the
constants strictly between `b` and `i` and stops at the active `b`,
accumulating offset `0`. -/
theorem resolve_down (cs : ChainStatic) (hwf : WFChain cs) (dyn : List NodeDyn)
    (hpat : IdxPat cs dyn) (b : Nat) (hb : actB cs b = true) :
    ∀ fuel i, b < i → i < cs.nodes.length →
    (∀ q, b < q → q < i → actB cs q = false) →
    i - b ≤ fuel →
    resolvePrev cs dyn fuel i = .ok (b, 0) := by
  intro fuel
  induction fuel with
  | zero => omega
  | succ fuel ih =>
    intro i hbi hiN hmid hfuel
    have hi1 : 0 < i := by omega
    have hprev : (cs.nodes.getD i default).prev = i - 1 := hwf.previ i hi1 hiN
    have hoff : (cs.nodes.getD i default).offset = 0 := hwf.offi i hi1 hiN
    simp only [resolvePrev, hprev, hoff]
    rcases Nat.eq_or_lt_of_le (show b ≤ i - 1 by omega) with heq | hlt
    · rcases hidx : (dyn.getD (i - 1) default).sampled_idx with _ | k
      · exfalso
        have := (hpat (i - 1) (by omega)).mp hidx
        rw [← heq] at this
        rw [hb] at this
        cases this
      · rw [heq]
    · have hnone : (dyn.getD (i - 1) default).sampled_idx = none :=
        (hpat (i - 1) (by omega)).mpr (hmid (i - 1) (by omega) (by omega))
      rw [hnone, ih (i - 1) hlt (by omega)
        (fun q h1 h2 => hmid q h1 (by omega)) (by omega)]
      norm_num

/-- Walking the ring downward through position 0 (wrapping to the top):
the walk crosses the single `-1` link and stops at the last active
position. -/
theorem resolve_wrap (cs : ChainStatic) (hwf : WFChain cs) (dyn : List NodeDyn)
    (hpat : IdxPat cs dyn) (b : Nat) (hb : actB cs b = true)
    (hbN : b < cs.nodes.length)
    (hhigh : ∀ q, b < q → q < cs.nodes.length → actB cs q = false) :
    ∀ fuel i, i ≤ b → i < cs.nodes.length →
    (∀ q, q < i → actB cs q = false) →
    i + 1 + (cs.nodes.length - b) ≤ fuel →
    resolvePrev cs dyn fuel i = .ok (b, -1) := by
  intro fuel
  induction fuel with
  | zero => omega
  | succ fuel ih =>
    intro i hib hiN hlow hfuel
    rcases Nat.eq_zero_or_pos i with h0 | hpos
    · subst h0
      have hprev : (cs.nodes.getD 0 default).prev = cs.nodes.length - 1 := hwf.prev0
      have hoff : (cs.nodes.getD 0 default).offset = -1 := hwf.off0
      simp only [resolvePrev, hprev, hoff]
      rcases Nat.eq_or_lt_of_le (show b ≤ cs.nodes.length - 1 by omega) with heq | hlt
      · rcases hidx : (dyn.getD (cs.nodes.length - 1) default).sampled_idx with _ | k
        · exfalso
          have := (hpat (cs.nodes.length - 1) (by omega)).mp hidx
          rw [← heq, hb] at this
          cases this
        · rw [heq]
      · have hnone : (dyn.getD (cs.nodes.length - 1) default).sampled_idx = none :=
          (hpat (cs.nodes.length - 1) (by omega)).mpr
            (hhigh (cs.nodes.length - 1) hlt (by omega))
        rw [hnone, resolve_down cs hwf dyn hpat b hb fuel (cs.nodes.length - 1)
          hlt (by omega) (fun q h1 h2 => hhigh q h1 (by omega)) (by omega)]
        norm_num
    · have hprev : (cs.nodes.getD i default).prev = i - 1 := hwf.previ i hpos hiN
      have hoff : (cs.nodes.getD i default).offset = 0 := hwf.offi i hpos hiN
      simp only [resolvePrev, hprev, hoff]
      have hnone : (dyn.getD (i - 1) default).sampled_idx = none :=
        (hpat (i - 1) (by omega)).mpr (hlow (i - 1) (by omega))
      rw [hnone, ih (i - 1) (by omega) (by omega)
        (fun q h1 => hlow q (by omega)) (by omega)]
      norm_num

/-- `previous`/`previous_offset` at the active node of rank `r`: rank
`r-1` with offset `0`, or — for rank 0 — the last active rank with offset
`-1`. -/
theorem resolvePrev_rank (cs : ChainStatic) (hwf : WFChain cs)
    (dyn : List NodeDyn) (hpat : IdxPat cs dyn) (r : Nat) (hr : r < mOf cs) :
    resolvePrev cs dyn (cs.nodes.length + 1) (rankPos cs r) =
      .ok (if r = 0 then (rankPos cs (mOf cs - 1), -1)
           else (rankPos cs (r - 1), 0)) := by
  obtain ⟨hrN, hract⟩ := rankPos_lt cs r hr
  rcases Nat.eq_zero_or_pos r with h0 | hpos
  · subst h0
    simp only [if_pos rfl]
    obtain ⟨hbN, hbact⟩ := rankPos_lt cs (mOf cs - 1) (by omega)
    have hle : rankPos cs 0 ≤ rankPos cs (mOf cs - 1) := by
      rcases Nat.eq_zero_or_pos (mOf cs - 1) with hm1 | hm2
      · rw [hm1]
      · exact le_of_lt (rankPos_strictMono cs 0 (mOf cs - 1) hm2 (by omega))
    exact resolve_wrap cs hwf dyn hpat _ hbact hbN
      (fun q h1 h2 => no_active_above cs (by omega) q h1 h2) _ _ hle hrN
      (fun q h1 => no_active_below cs (by omega) q h1 (by omega)) (by omega)
  · simp only [Nat.pos_iff_ne_zero.mp hpos, if_false]
    obtain ⟨hbN, hbact⟩ := rankPos_lt cs (r - 1) (by omega)
    refine resolve_down cs hwf dyn hpat _ hbact _ _
      (rankPos_strictMono cs (r - 1) r (by omega) hr) hrN
      (fun q h1 h2 => ?_) (by omega)
    have := no_active_between cs (r - 1) (by omega) q
    rw [show r - 1 + 1 = r by omega] at this
    exact this h1 h2 (by omega)

theorem rounds_self (m a r : Nat) (hm : 0 < m) (hr : r < m) :
    rounds m (m * a + r) r = a := by
  rw [rounds_decomp m a r r hm hr]
  simp

theorem rounds_succ (m t r r' : Nat) (hm : 0 < m) (hmod : t % m = r)
    (hr' : r' < m) :
    rounds m (t + 1) r' = rounds m t r' + if r' = r then 1 else 0 := by
  have hq := Nat.div_add_mod t m
  have hrm : r < m := hmod ▸ Nat.mod_lt t hm
  set q := t / m with hqd
  have ht : t = m * q + r := by omega
  rcases Nat.lt_or_ge (r + 1) m with hlt | hge
  · have h1 : t + 1 = m * q + (r + 1) := by omega
    rw [h1, ht, rounds_decomp m q r r' hm (by omega),
      rounds_decomp m q (r + 1) r' hm hlt]
    split_ifs <;> omega
  · have h1 : t + 1 = m * (q + 1) + 0 := by
      have : m * (q + 1) = m * q + m := by ring
      omega
    rw [h1, ht, rounds_decomp m q r r' hm (by omega),
      rounds_decomp m (q + 1) 0 r' hm hm]
    split_ifs <;> omega

theorem rounds_adj (m t r : Nat) (hm : 0 < m) (hr : r < m) (hr1 : 1 ≤ r) :
    rounds m t (r - 1) = rounds m t r ∨
    rounds m t (r - 1) = rounds m t r + 1 := by
  have hs : t % m < m := Nat.mod_lt _ hm
  unfold rounds
  split_ifs <;> omega

theorem rounds_adj_eq (m t r : Nat) (hm : 0 < m) (hr : r < m) (hr1 : 1 ≤ r)
    (h : rounds m t (r - 1) = rounds m t r + 1) :
    t = m * rounds m t r + r := by
  have hq := Nat.div_add_mod t m
  have hs : t % m < m := Nat.mod_lt _ hm
  unfold rounds at h ⊢
  split_ifs at h ⊢ with h1 h2 <;>
    simp only [Nat.mul_add, Nat.mul_one] <;> omega

theorem rounds_wrap_cases (m t : Nat) (hm : 0 < m) :
    rounds m t (m - 1) = rounds m t 0 ∨
    rounds m t (m - 1) + 1 = rounds m t 0 := by
  have hs : t % m < m := Nat.mod_lt _ hm
  unfold rounds
  split_ifs <;> omega

theorem rounds_wrap_eq (m t : Nat) (hm : 0 < m)
    (h : rounds m t (m - 1) = rounds m t 0) : t = m * rounds m t 0 := by
  have hq := Nat.div_add_mod t m
  have hs : t % m < m := Nat.mod_lt _ hm
  unfold rounds at h ⊢
  split_ifs at h ⊢ with h1 h2 <;>
    simp only [Nat.mul_add, Nat.mul_one] <;> omega

theorem rounds_wrap_lt (m t : Nat) (hm : 0 < m)
    (h : rounds m t (m - 1) + 1 = rounds m t 0) :
    rounds m t (m - 1) + 1 = rounds m t (m - 1 - (m - 1)) := by
  rw [Nat.sub_self]
  exact h

/-- One canonical generation step preserves the family invariant:
if the next canonical draw belongs to rank `r` (`t % m = r`) and that
draw succeeds, then incrementing the node's index and appending the
drawn value to its cache yields the family state after `t + 1` draws. -/
theorem fam_gen_step (cs : ChainStatic) (r0 : RNGState)
    {t : Nat} {cons : Nat → Nat} {s : SState} {r : Nat} {v : Value} {r2 : RNGState}
    (hfam : Fam cs r0 t cons s) (hr : r < mOf cs) (hmod : t % mOf cs = r)
    (hgen : genOf cs r (sState cs r0 t) = (.ok v, r2)) :
    Fam cs r0 (t + 1) cons
      (SState.pushCache
        { (s.setIdx (rankPos cs r) (some (((rounds (mOf cs) t r : Nat) : Int) + 1)))
            with rng := r2 }
        (rankPos cs r) v) := by
  have hm : 0 < mOf cs := by omega
  obtain ⟨hiN, hact⟩ := rankPos_lt cs r hr
  set i := rankPos cs r with hidef
  set a := rounds (mOf cs) t r with hadef
  have hlen : s.dyn.length = cs.nodes.length := hfam.len
  set nd1 : NodeDyn := ⟨some ((a : Int) + 1), (s.dyn.getD i default).cache⟩ with hnd1
  have hdyn2 : (SState.setIdx s i (some ((a : Int) + 1))).dyn = s.dyn.set i nd1 := rfl
  have hget2 : (s.dyn.set i nd1).getD i default = nd1 :=
    getD_set_self s.dyn i nd1 (by omega)
  set c := (s.dyn.getD i default).cache with hcdef
  set nd2 : NodeDyn := ⟨some ((a : Int) + 1), c ++ [v]⟩ with hnd2
  have hdyn' : (SState.pushCache
      { (s.setIdx i (some ((a : Int) + 1))) with rng := r2 } i v).dyn =
      (s.dyn.set i nd1).set i nd2 := by
    simp only [SState.pushCache, hdyn2, hget2]
  have hrng' : (SState.pushCache
      { (s.setIdx i (some ((a : Int) + 1))) with rng := r2 } i v).rng = r2 := rfl
  have hgetF : ((s.dyn.set i nd1).set i nd2).getD i default = nd2 :=
    getD_set_self _ i nd2 (by simp [List.length_set]; omega)
  have hgetO : ∀ p, p ≠ i → ((s.dyn.set i nd1).set i nd2).getD p default =
      s.dyn.getD p default := by
    intro p hp
    rw [getD_set_ne _ i p nd2 (Ne.symm hp), getD_set_ne _ i p nd1 (Ne.symm hp)]
  have hsvalt : sVal cs r0 t = .ok v := by
    unfold sVal
    rw [hmod, hgen]
  have hstate1 : sState cs r0 (t + 1) = r2 := by
    show (genOf cs (t % mOf cs) (sState cs r0 t)).2 = r2
    rw [hmod, hgen]
  constructor
  · rw [hdyn']
    simp [List.length_set, hlen]
  · intro p hp hconst
    have hpne : p ≠ i := by
      intro h
      rw [h, hact] at hconst
      cases hconst
    rw [hdyn', hgetO p hpne]
    exact hfam.constPart p hp hconst
  · intro r' hr'
    rw [hdyn']
    rcases eq_or_ne r' r with heq | hne
    · subst heq
      rw [← hidef, hgetF, hnd2]
      have : rounds (mOf cs) (t + 1) r' = a + 1 := by
        rw [rounds_succ (mOf cs) t r' r' hm hmod hr', if_pos rfl]
      rw [this]
      push_cast
      rfl
    · have hpne : rankPos cs r' ≠ i :=
        fun h => hne (rankPos_inj cs r' r hr' hr (hidef ▸ h))
      rw [hgetO _ hpne]
      have : rounds (mOf cs) (t + 1) r' = rounds (mOf cs) t r' := by
        rw [rounds_succ (mOf cs) t r r' hm hmod hr', if_neg hne]
        omega
      rw [this]
      exact hfam.activeIdx r' hr'
  · intro r' hr'
    rw [hdyn']
    rcases eq_or_ne r' r with heq | hne
    · subst heq
      rw [← hidef, hgetF, hnd2]
      have h1 : rounds (mOf cs) (t + 1) r' = a + 1 := by
        rw [rounds_succ (mOf cs) t r' r' hm hmod hr', if_pos rfl]
      have h2 := hfam.cacheLen r' hr'
      have h3 := hfam.consLe r' hr'
      rw [h1]
      simp only [List.length_append, List.length_singleton]
      rw [← hidef] at h2
      rw [← hcdef] at h2
      omega
    · have hpne : rankPos cs r' ≠ i :=
        fun h => hne (rankPos_inj cs r' r hr' hr (hidef ▸ h))
      rw [hgetO _ hpne]
      have : rounds (mOf cs) (t + 1) r' = rounds (mOf cs) t r' := by
        rw [rounds_succ (mOf cs) t r r' hm hmod hr', if_neg hne]
        omega
      rw [this]
      exact hfam.cacheLen r' hr'
  · intro r' hr' k w hw
    rcases eq_or_ne r' r with heq | hne
    · subst heq
      rw [hdyn', ← hidef, hgetF, hnd2] at hw
      simp only at hw
      rcases Nat.lt_trichotomy k c.length with hk | hk | hk
      · rw [List.get?_append hk] at hw
        have := hfam.cacheVals r' hr' k w (by rw [← hidef, ← hcdef]; exact hw)
        exact this
      · subst hk
        rw [List.get?_concat_length] at hw
        have hcl := hfam.cacheLen r' hr'
        rw [← hidef, ← hcdef] at hcl
        have h3 := hfam.consLe r' hr'
        have hkk : cons r' + c.length = a := by omega
        rw [hkk]
        have hta : a * mOf cs + r' = t := by
          have hq := Nat.div_add_mod t (mOf cs)
          have ha' : a = t / mOf cs := by
            rw [hadef]
            unfold rounds
            rw [hmod]
            simp
          have h5 : a * mOf cs = mOf cs * (t / mOf cs) := by
            rw [ha']
            ring
          omega
        rw [hta]
        obtain rfl : v = w := Option.some.inj hw
        exact hsvalt
      · exfalso
        have : (c ++ [v]).length ≤ k := by
          simp only [List.length_append, List.length_singleton]
          omega
        rw [List.get?_eq_none.mpr this] at hw
        cases hw
    · have hpne : rankPos cs r' ≠ i :=
        fun h => hne (rankPos_inj cs r' r hr' hr (hidef ▸ h))
      rw [hdyn', hgetO _ hpne] at hw
      exact hfam.cacheVals r' hr' k w hw
  · intro r' hr'
    rcases eq_or_ne r' r with heq | hne
    · subst heq
      have : rounds (mOf cs) (t + 1) r' = a + 1 := by
        rw [rounds_succ (mOf cs) t r' r' hm hmod hr', if_pos rfl]
      rw [this]
      have := hfam.consLe r' hr'
      omega
    · have : rounds (mOf cs) (t + 1) r' = rounds (mOf cs) t r' := by
        rw [rounds_succ (mOf cs) t r r' hm hmod hr', if_neg hne]
        omega
      rw [this]
      exact hfam.consLe r' hr'
  · rw [hrng', hstate1]

/-- Partial correctness of the `_sample` cascade on family states:
driving the node of rank `r` to target `rounds m t r + 1` advances the
chain to exactly `m·(rounds m t r) + r + 1` total canonical draws (the
predecessor loop having generated every intermediate canonical draw in
order), and a target at or below the current index changes nothing.
Stated for every fuel; a run that exhausts fuel returns `RecursionError`
and is excluded by the `res = .ok ()` hypothesis. -/
theorem cascade (cs : ChainStatic) (r0 : RNGState) (hwf : WFChain cs) :
    ∀ fuel : Nat,
    (∀ (t : Nat) (cons : Nat → Nat) (s : SState) (r : Nat) (tgt : Option Int)
        (res : Except PyErr Unit) (s' : SState),
      Fam cs r0 t cons s → r < mOf cs →
      sampleRec cs fuel (rankPos cs r) tgt s = (res, s') → res = .ok () →
      tgt.getD (((rounds (mOf cs) t r : Nat) : Int) + 1) ≤
        ((rounds (mOf cs) t r : Nat) : Int) + 1 →
      (tgt.getD (((rounds (mOf cs) t r : Nat) : Int) + 1) ≤
          ((rounds (mOf cs) t r : Nat) : Int) → s' = s) ∧
      (tgt.getD (((rounds (mOf cs) t r : Nat) : Int) + 1) =
          ((rounds (mOf cs) t r : Nat) : Int) + 1 →
        Fam cs r0 (mOf cs * rounds (mOf cs) t r + r + 1) cons s'))
    ∧
    (∀ (t : Nat) (cons : Nat → Nat) (s : SState) (r : Nat)
        (res : Except PyErr Unit) (s' : SState),
      Fam cs r0 t cons s → r < mOf cs →
      whileAdv cs fuel (rankPos cs r)
        (((rounds (mOf cs) t r : Nat) : Int) + 1) s = (res, s') →
      res = .ok () →
      Fam cs r0 (mOf cs * rounds (mOf cs) t r + r) cons s') := by
  intro fuel
  induction fuel with
  | zero =>
    constructor
    · intro t cons s r tgt res s' _ _ hrun hok _
      subst hok
      simp only [sampleRec, Prod.mk.injEq] at hrun
      exact absurd hrun.1 (by simp)
    · intro t cons s r res s' _ _ hrun hok
      subst hok
      simp only [whileAdv, Prod.mk.injEq] at hrun
      exact absurd hrun.1 (by simp)
  | succ fuel ih =>
    obtain ⟨ihS, ihW⟩ := ih
    constructor
    · -- sampleRec (fuel+1)
      intro t cons s r tgt res s' hfam hr hrun hok hle
      subst hok
      have hm : 0 < mOf cs := by omega
      set a := rounds (mOf cs) t r with hadef
      set i := rankPos cs r with hidef
      have hidx : s.idxAt i = some ((a : Nat) : Int) := hfam.activeIdx r hr
      simp only [sampleRec, hidx] at hrun
      set T := tgt.getD (((a : Nat) : Int) + 1) with hTdef
      by_cases hcase : ((a : Nat) : Int) < T
      · -- the target is ahead: the while loop runs, then one draw happens
        have hTa : T = ((a : Nat) : Int) + 1 := by omega
        refine ⟨fun hcon => absurd hcon (by omega), fun _ => ?_⟩
        rw [if_pos hcase] at hrun
        rcases hw : whileAdv cs fuel i T s with ⟨wres, s1⟩
        rw [hw] at hrun
        cases wres with
        | error e => simp only [Prod.mk.injEq] at hrun; exact absurd hrun.1 (by simp)
        | ok u =>
          have hfam1 : Fam cs r0 (mOf cs * a + r) cons s1 := by
            refine ihW t cons s r (.ok u) s1 hfam hr ?_ rfl
            rw [← hTa]
            exact hw
          set t2 := mOf cs * a + r with ht2
          have ha2 : rounds (mOf cs) t2 r = a := rounds_self (mOf cs) a r hm hr
          have hidx1 : s1.idxAt i = some ((a : Nat) : Int) := by
            have h0 := hfam1.activeIdx r hr
            rw [ha2] at h0
            exact h0
          simp only [hidx1] at hrun
          have hmod2 : t2 % mOf cs = r := by
            rw [ht2, Nat.mul_add_mod, Nat.mod_eq_of_lt hr]
          rcases hgen : (cs.nodes.getD i default).gen
              (s1.setIdx i (some (((a : Nat) : Int) + 1))).rng with ⟨gres, r2⟩
          rw [hgen] at hrun
          cases gres with
          | error e => simp only [Prod.mk.injEq] at hrun; exact absurd hrun.1 (by simp)
          | ok v =>
            simp only [Prod.mk.injEq] at hrun
            obtain ⟨-, hs'⟩ := hrun
            have hgen' : genOf cs r (sState cs r0 t2) = (.ok v, r2) := by
              have hrg : (s1.setIdx i (some (((a : Nat) : Int) + 1))).rng =
                  sState cs r0 t2 := hfam1.rng
              rw [← hrg]
              exact hgen
            have hstep := fam_gen_step cs r0 hfam1 hr hmod2 hgen'
            rw [ha2] at hstep
            rw [← hs']
            exact hstep
      · -- target at or below the index: no-op
        rw [if_neg hcase] at hrun
        simp only [Prod.mk.injEq] at hrun
        refine ⟨fun _ => hrun.2.symm, fun hcon => absurd hcon (by omega)⟩
    · -- whileAdv (fuel+1)
      intro t cons s r res s' hfam hr hrun hok
      subst hok
      have hm : 0 < mOf cs := by omega
      set a := rounds (mOf cs) t r with hadef
      set i := rankPos cs r with hidef
      have hres := resolvePrev_rank cs hwf s.dyn hfam.idxPat r hr
      rcases Nat.eq_zero_or_pos r with hr0 | hrpos
      · subst hr0
        rw [if_pos rfl] at hres
        simp only [whileAdv, hres] at hrun
        set cc := rounds (mOf cs) t (mOf cs - 1) with hccdef
        have hc : s.idxAt (rankPos cs (mOf cs - 1)) = some ((cc : Nat) : Int) :=
          hfam.activeIdx (mOf cs - 1) (by omega)
        simp only [hc] at hrun
        rcases rounds_wrap_cases (mOf cs) t hm with hcase | hcase
        · -- the last active node is already caught up
          rw [← hccdef, ← hadef] at hcase
          have hncond : ¬ (((cc : Nat) : Int) < ((a : Nat) : Int) + 1 + (-1)) := by
            push_cast
            omega
          rw [if_neg hncond] at hrun
          simp only [Prod.mk.injEq] at hrun
          have ht' : t = mOf cs * a := by
            have := rounds_wrap_eq (mOf cs) t hm (by rw [← hccdef, ← hadef]; exact hcase)
            rw [← hadef] at this
            exact this
          rw [← hrun.2, show mOf cs * a + 0 = t by omega]
          exact hfam
        · -- the last active node is one behind: advance it once, re-test
          rw [← hccdef, ← hadef] at hcase
          have hcond : ((cc : Nat) : Int) < ((a : Nat) : Int) + 1 + (-1) := by
            push_cast
            omega
          rw [if_pos hcond] at hrun
          rcases hrec : sampleRec cs fuel (rankPos cs (mOf cs - 1))
              (some (((a : Nat) : Int) + 1 + (-1))) s with ⟨rres, s1⟩
          rw [hrec] at hrun
          cases rres with
          | error e => simp only [Prod.mk.injEq] at hrun; exact absurd hrun.1 (by simp)
          | ok u =>
            have hTgd : (some (((a : Nat) : Int) + 1 + (-1))).getD
                (((cc : Nat) : Int) + 1) = ((cc : Nat) : Int) + 1 := by
              simp only [Option.getD_some]
              push_cast
              omega
            have happ := (ihS t cons s (mOf cs - 1) (some (((a : Nat) : Int) + 1 + (-1)))
              (.ok u) s1 hfam (by omega) hrec rfl (by rw [hTgd])).2 hTgd
            have harith : mOf cs * rounds (mOf cs) t (mOf cs - 1) + (mOf cs - 1) + 1 =
                mOf cs * a + 0 := by
              rw [← hccdef]
              have h5 : mOf cs * a = mOf cs * cc + mOf cs := by
                rw [← hcase]
                ring
              omega
            rw [harith] at happ
            have ha2 : rounds (mOf cs) (mOf cs * a + 0) 0 = a :=
              rounds_self (mOf cs) a 0 hm hm
            have hfin := ihW (mOf cs * a + 0) cons s1 0 (.ok ()) s' happ hm
              (by rw [ha2]; exact hrun) rfl
            rw [ha2] at hfin
            exact hfin
      · -- interior rank: predecessor is rank r-1 with offset 0
        have hrne : r ≠ 0 := by omega
        rw [if_neg hrne] at hres
        simp only [whileAdv, hres] at hrun
        set b := rounds (mOf cs) t (r - 1) with hbdef
        have hb : s.idxAt (rankPos cs (r - 1)) = some ((b : Nat) : Int) :=
          hfam.activeIdx (r - 1) (by omega)
        simp only [hb] at hrun
        rcases rounds_adj (mOf cs) t r hm hr hrpos with hcase | hcase
        · -- predecessor is one behind (equal index): advance it once
          rw [← hbdef, ← hadef] at hcase
          have hcond : ((b : Nat) : Int) < ((a : Nat) : Int) + 1 + 0 := by
            push_cast
            omega
          rw [if_pos hcond] at hrun
          rcases hrec : sampleRec cs fuel (rankPos cs (r - 1))
              (some (((a : Nat) : Int) + 1 + 0)) s with ⟨rres, s1⟩
          rw [hrec] at hrun
          cases rres with
          | error e => simp only [Prod.mk.injEq] at hrun; exact absurd hrun.1 (by simp)
          | ok u =>
            have hTgd : (some (((a : Nat) : Int) + 1 + 0)).getD
                (((b : Nat) : Int) + 1) = ((b : Nat) : Int) + 1 := by
              simp only [Option.getD_some]
              push_cast
              omega
            have happ := (ihS t cons s (r - 1) (some (((a : Nat) : Int) + 1 + 0))
              (.ok u) s1 hfam (by omega) hrec rfl (by rw [hTgd])).2 hTgd
            have harith : mOf cs * rounds (mOf cs) t (r - 1) + (r - 1) + 1 =
                mOf cs * a + r := by
              rw [← hbdef, ← hcase]
              omega
            rw [harith] at happ
            have ha2 : rounds (mOf cs) (mOf cs * a + r) r = a :=
              rounds_self (mOf cs) a r hm hr
            have hfin := ihW (mOf cs * a + r) cons s1 r (.ok ()) s' happ hr
              (by rw [ha2]; exact hrun) rfl
            rw [ha2] at hfin
            exact hfin
        · -- predecessor is ahead: the loop body never runs
          rw [← hbdef, ← hadef] at hcase
          have hncond : ¬ (((b : Nat) : Int) < ((a : Nat) : Int) + 1 + 0) := by
            push_cast
            omega
          rw [if_neg hncond] at hrun
          simp only [Prod.mk.injEq] at hrun
          have ht' : t = mOf cs * a + r := by
            have := rounds_adj_eq (mOf cs) t r hm hr hrpos
              (by rw [← hbdef, ← hadef]; exact hcase)
            rw [← hadef] at this
            exact this
          rw [← hrun.2, ← ht']
          exact hfam

/-- After filling, the filling node has made one more draw than a full
round count. -/
theorem rounds_fill (m a r : Nat) (hm : 0 < m) (hr : r < m) :
    rounds m (m * a + r + 1) r = a + 1 := by
  rcases Nat.lt_or_ge (r + 1) m with h | h
  · rw [show m * a + r + 1 = m * a + (r + 1) by ring,
      rounds_decomp m a (r + 1) r hm h]
    simp
  · have hrm : r + 1 = m := by omega
    rw [show m * a + r + 1 = m * (a + 1) + 0 by rw [Nat.mul_succ]; omega,
      rounds_decomp m (a + 1) 0 r hm hm]
    simp

/-- Bump the consumption count of one rank. -/
def consB (cons : Nat → Nat) (r : Nat) : Nat → Nat :=
  fun q => if q = r then cons r + 1 else cons q

/-- Popping the head of an active node's cache consumes exactly its next
canonical value and preserves the family invariant. -/
theorem fam_pop (cs : ChainStatic) (r0 : RNGState) {t : Nat} {cons : Nat → Nat}
    {s : SState} {r : Nat} {v : Value} {rest : List Value}
    (hfam : Fam cs r0 t cons s) (hr : r < mOf cs)
    (hc : s.cacheAt (rankPos cs r) = v :: rest) :
    sVal cs r0 (cons r * mOf cs + r) = .ok v ∧
    Fam cs r0 t (consB cons r) (s.setCache (rankPos cs r) rest) := by
  obtain ⟨hiN, hact⟩ := rankPos_lt cs r hr
  have hcc : (s.dyn.getD (rankPos cs r) default).cache = v :: rest := hc
  have hdyn : (s.setCache (rankPos cs r) rest).dyn =
      s.dyn.set (rankPos cs r)
        ⟨(s.dyn.getD (rankPos cs r) default).sampled_idx, rest⟩ := rfl
  have hconsLt : cons r < rounds (mOf cs) t r := by
    have h1 := hfam.cacheLen r hr
    rw [hcc] at h1
    simp only [List.length_cons] at h1
    have h2 := hfam.consLe r hr
    omega
  constructor
  · have h0 := hfam.cacheVals r hr 0 v (by rw [hcc]; rfl)
    simpa using h0
  · refine ⟨?_, ?_, ?_, ?_, ?_, ?_, ?_⟩
    · rw [hdyn, List.length_set]
      exact hfam.len
    · intro p hp hpc
      have hpi : rankPos cs r ≠ p := by
        intro h
        rw [← h, hact] at hpc
        cases hpc
      rw [hdyn, getD_set_ne _ _ _ _ hpi]
      exact hfam.constPart p hp hpc
    · intro q hq
      rcases eq_or_ne (rankPos cs q) (rankPos cs r) with hqi | hqi
      · rw [hqi, hdyn, getD_set_self _ _ _ (by rw [hfam.len]; exact hiN)]
        have h0 := hfam.activeIdx q hq
        rw [hqi] at h0
        exact h0
      · rw [hdyn, getD_set_ne _ _ _ _ (fun h => hqi h.symm)]
        exact hfam.activeIdx q hq
    · intro q hq
      rcases eq_or_ne q r with hqr | hqr
      · subst hqr
        rw [hdyn, getD_set_self _ _ _ (by rw [hfam.len]; exact hiN)]
        simp only [consB, if_true]
        have h1 := hfam.cacheLen q hq
        rw [hcc] at h1
        simp only [List.length_cons] at h1
        omega
      · have hne : rankPos cs r ≠ rankPos cs q := by
          intro h
          exact hqr (rankPos_inj cs q r hq hr h.symm)
        rw [hdyn, getD_set_ne _ _ _ _ hne]
        simp only [consB, if_neg hqr]
        exact hfam.cacheLen q hq
    · intro q hq k w hw
      rcases eq_or_ne q r with hqr | hqr
      · subst hqr
        rw [hdyn, getD_set_self _ _ _ (by rw [hfam.len]; exact hiN)] at hw
        have h0 := hfam.cacheVals q hq (k + 1) w
          (by rw [hcc]; simpa using hw)
        simp only [consB, if_true]
        rw [show cons q + 1 + k = cons q + (k + 1) by omega]
        exact h0
      · have hne : rankPos cs r ≠ rankPos cs q := by
          intro h
          exact hqr (rankPos_inj cs q r hq hr h.symm)
        rw [hdyn, getD_set_ne _ _ _ _ hne] at hw
        simp only [consB, if_neg hqr]
        exact hfam.cacheVals q hq k w hw
    · intro q hq
      rcases eq_or_ne q r with hqr | hqr
      · subst hqr
        simp only [consB, if_true]
        omega
      · simp only [consB, if_neg hqr]
        exact hfam.consLe q hq
    · exact hfam.rng

/-- `ParameterSampler.__call__` on an active node from a family state:
the returned value is the node's `cons r`-th canonical stream value, and
the new state is again a family state with that node's consumption count
bumped. -/
theorem callSampler_active (cs : ChainStatic) (r0 : RNGState) (hwf : WFChain cs)
    (fuel : Nat) {t : Nat} {cons : Nat → Nat} {s : SState} {r : Nat}
    {v0 : Value} {s2 : SState}
    (hfam : Fam cs r0 t cons s) (hr : r < mOf cs)
    (hrun : callSampler cs fuel (rankPos cs r) s = (.ok v0, s2)) :
    sVal cs r0 (cons r * mOf cs + r) = .ok v0 ∧
    ∃ t2, Fam cs r0 t2 (consB cons r) s2 := by
  have hm : 0 < mOf cs := by omega
  rcases hce : s.cacheAt (rankPos cs r) with _ | ⟨w, rest⟩
  · -- empty cache: one fill, then pop the single fresh value
    simp only [callSampler, hce, List.isEmpty_nil, if_true] at hrun
    rcases hsr : sampleRec cs fuel (rankPos cs r) none s with ⟨sres, s1⟩
    rw [hsr] at hrun
    cases sres with
    | error e => simp only [Prod.mk.injEq] at hrun; exact absurd hrun.1 (by simp)
    | ok u =>
      have hcons : cons r = rounds (mOf cs) t r := by
        have h1 := hfam.cacheLen r hr
        have h2 := hfam.consLe r hr
        rw [show (s.dyn.getD (rankPos cs r) default).cache = ([] : List Value)
          from hce] at h1
        simp only [List.length_nil] at h1
        omega
      have hcas := ((cascade cs r0 hwf fuel).1 t cons s r none (.ok u) s1 hfam hr
        hsr rfl (by simp)).2 (by simp)
      have hlen1 : (s1.cacheAt (rankPos cs r)).length = 1 := by
        have h1 := hcas.cacheLen r hr
        rw [rounds_fill (mOf cs) (rounds (mOf cs) t r) r hm hr] at h1
        show (s1.dyn.getD (rankPos cs r) default).cache.length = 1
        omega
      obtain ⟨w, hw⟩ := List.length_eq_one.mp hlen1
      simp only [hw] at hrun
      simp only [Prod.mk.injEq, Except.ok.injEq] at hrun
      obtain ⟨hv, hs2⟩ := hrun
      subst hv
      have hpop := fam_pop cs r0 hcas hr hw
      exact ⟨hpop.1, mOf cs * rounds (mOf cs) t r + r + 1,
        by rw [← hs2]; exact hpop.2⟩
  · -- cached value available: pop it, no generation
    simp only [callSampler, hce, List.isEmpty_cons, Bool.false_eq_true,
      if_false] at hrun
    simp only [Prod.mk.injEq, Except.ok.injEq] at hrun
    obtain ⟨hv, hs2⟩ := hrun
    subst hv
    have hpop := fam_pop cs r0 hfam hr hce
    exact ⟨hpop.1, t, by rw [← hs2]; exact hpop.2⟩

/-- `self._samplers[name]` success pins the position to the unique index
of `name` in `varnames`. -/
theorem samplerPos_name (cs : ChainStatic) (n : String) (p : Nat)
    (h : samplerPos cs n = .ok p) :
    p < cs.varnames.length ∧ cs.varnames.get? p = some n := by
  unfold samplerPos at h
  rcases hf : cs.varnames.findIdx? (· = n) with _ | q
  · rw [hf] at h
    exact absurd h (by simp)
  · rw [hf] at h
    simp only [Except.ok.injEq] at h
    subst h
    obtain ⟨hlt, hp, -⟩ := List.findIdx?_eq_some_iff_getElem.mp hf
    refine ⟨hlt, ?_⟩
    rw [List.get?_eq_getElem?, List.getElem?_eq_getElem hlt]
    simp only [Option.some.injEq]
    exact of_decide_eq_true hp

/-- Every active position is the position of some rank. -/
theorem actB_rank (cs : ChainStatic) (p : Nat) (hp : p < cs.nodes.length)
    (ha : actB cs p = true) : ∃ r, r < mOf cs ∧ rankPos cs r = p := by
  have hmem : p ∈ arsOf cs := (arsOf_mem cs p).mpr ⟨hp, ha⟩
  obtain ⟨j, hj, hjq⟩ := List.getElem_of_mem hmem
  refine ⟨j, hj, ?_⟩
  unfold rankPos
  rw [List.getD_eq_getElem _ _ hj, hjq]

/-- A node built by `ParameterSampler.__init__` is either a constant node
(idle index, pure constant generator) or a sampled node starting at index
`0`. -/
theorem mkSampler_shape (n : String) (ent : PEntry) (pop : Option (List String))
    (nd : NodeStatic) (h : mkSampler n ent pop = .ok nd) :
    (nd.initIdx = none ∧ ∃ v, nd.gen = fun r => (.ok (.arr v), r)) ∨
    nd.initIdx = some 0 := by
  cases ent with
  | val v =>
    left
    simp only [mkSampler, Except.ok.injEq] at h
    subst h
    exact ⟨rfl, v, rfl⟩
  | pset dp =>
    right
    simp only [mkSampler] at h
    repeat' split at h
    all_goals simp_all
    all_goals (obtain ⟨rfl⟩ := h)
    all_goals rfl

/-- `buildNodes` produces one node per name, each of `mkSampler` shape. -/
theorem buildNodes_spec (dists : PDict) (pop : Option (List String)) :
    ∀ (ns : List String) (l : List NodeStatic),
    buildNodes dists pop ns = .ok l →
    l.length = ns.length ∧ ∀ nd ∈ l,
      (nd.initIdx = none ∧ ∃ v, nd.gen = fun r => (.ok (.arr v), r)) ∨
      nd.initIdx = some 0 := by
  intro ns
  induction ns with
  | nil =>
    intro l h
    simp only [buildNodes, Except.ok.injEq] at h
    subst h
    exact ⟨rfl, by simp⟩
  | cons n rest ih =>
    intro l h
    simp only [buildNodes] at h
    rcases hg : psGet dists n with _ | ent
    · simp only [hg] at h
      exact absurd h (by simp)
    · simp only [hg] at h
      rcases hmk : mkSampler n ent pop with e | nd
      · simp only [hmk] at h
        exact absurd h (by simp)
      · simp only [hmk] at h
        rcases hbn : buildNodes dists pop rest with e | nds
        · simp only [hbn] at h
          exact absurd h (by simp)
        · simp only [hbn] at h
          simp only [Except.ok.injEq] at h
          subst h
          obtain ⟨hlen, hall⟩ := ih nds hbn
          refine ⟨by simp [hlen], ?_⟩
          intro nd2 hmem
          rcases List.mem_cons.mp hmem with hh | hh
          · subst hh
            exact mkSampler_shape n ent pop nd2 hmk
          · exact hall nd2 hh

/-- The `set_previous` loop starting at position `i` rewires exactly the
`prev`/`offset` fields, linking each node to its predecessor. -/
theorem linkRest_spec :
    ∀ (l : List NodeStatic) (i : Nat) (l2 : List NodeStatic),
    linkRest i l = .ok l2 →
    l2.length = l.length ∧ ∀ j, j < l.length →
      l2.getD j default =
        { l.getD j default with prev := i + j - 1, offset := 0 } := by
  intro l
  induction l with
  | nil =>
    intro i l2 h
    simp only [linkRest, Except.ok.injEq] at h
    subst h
    exact ⟨rfl, by intro j hj; cases hj⟩
  | cons nd rest ih =>
    intro i l2 h
    simp only [linkRest, setPrevious, lt_irrefl, if_false] at h
    rcases hlr : linkRest (i + 1) rest with e | rest2
    · rw [hlr] at h
      exact absurd h (by simp)
    · rw [hlr] at h
      simp only [Except.ok.injEq] at h
      subst h
      obtain ⟨hlen, hall⟩ := ih (i + 1) rest2 hlr
      refine ⟨by simp [hlen], ?_⟩
      intro j hj
      cases j with
      | zero => simp [List.getD_cons_zero]
      | succ j2 =>
        simp only [List.getD_cons_succ]
        have harith : (i + 1) + j2 - 1 = i + (j2 + 1) - 1 := by omega
        rw [← harith]
        exact hall j2 (by simpa using hj)

/-- `linkNodes` closes the ring: node `0` points at the last node with
offset `-1`, node `j ≥ 1` points at `j - 1` with offset `0`. -/
theorem linkNodes_spec (l l2 : List NodeStatic) (h : linkNodes l = .ok l2) :
    0 < l.length ∧ l2.length = l.length ∧
    l2.getD 0 default =
      { l.getD 0 default with prev := l.length - 1, offset := -1 } ∧
    ∀ j, 0 < j → j < l.length →
      l2.getD j default = { l.getD j default with prev := j - 1, offset := 0 } := by
  cases l with
  | nil => exact absurd h (by simp [linkNodes])
  | cons n0 rest =>
    simp only [linkNodes, setPrevious] at h
    rw [if_neg (by omega)] at h
    rcases hlr : linkRest 1 rest with e | rest2
    · rw [hlr] at h
      exact absurd h (by simp)
    · rw [hlr] at h
      simp only [Except.ok.injEq] at h
      subst h
      obtain ⟨hlen, hall⟩ := linkRest_spec rest 1 rest2 hlr
      refine ⟨by simp, by simp [hlen], by simp [List.getD_cons_zero], ?_⟩
      intro j hj0 hj
      cases j with
      | zero => cases hj0
      | succ j2 =>
        simp only [List.getD_cons_succ]
        have := hall j2 (by simpa using hj)
        simpa using this

/-- With a resolved seed, the constructed chain does not depend on the
ambient generator state. -/
theorem construct_det (dists : PDict) (seed : Option Int) (s0 : Int)
    (hs : resolveSeed dists seed = .ok (some s0)) (ambA ambB : RNGState)
    {chA chB : Chain} {a2 b2 : RNGState}
    (hA : construct dists seed ambA = (.ok chA, a2))
    (hB : construct dists seed ambB = (.ok chB, b2)) : chA = chB := by
  simp only [construct] at hA hB
  by_cases hpa : 1 < (populationAttrsList.filter (fun a => psMem dists a)).length
  · rw [if_pos hpa] at hA
    exact absurd hA (by simp)
  · rw [if_neg hpa] at hA hB
    rcases hrp : resolvePopnames dists
        (populationAttrsList.filter (fun a => psMem dists a)) with e | pn
    · simp only [hrp] at hA
      exact absurd hA (by simp)
    · simp only [hrp, hs] at hA hB
      rcases hbn : buildNodes dists pn
          (sortNames ((dists.map Prod.fst).filter
            (fun n => !(("seed" :: populationAttrsList.filter
              (fun a => psMem dists a)).contains n)))) with e | nodes0
      · simp only [hbn] at hA
        exact absurd hA (by simp)
      · simp only [hbn] at hA hB
        rcases hln : linkNodes nodes0 with e | nodes
        · simp only [hln] at hA
          exact absurd hA (by simp)
        · simp only [hln, Prod.mk.injEq, Except.ok.injEq] at hA hB
          rw [← hA.1, ← hB.1]

/-- The assembled node list and fresh runtime states form a well-formed
chain in its initial family state. -/
theorem assembled_wf (vn : List String) (nodes0 nodes : List NodeStatic)
    (r0 : RNGState) (hlen0 : nodes0.length = vn.length)
    (hshape : ∀ nd ∈ nodes0,
      (nd.initIdx = none ∧ ∃ v, nd.gen = fun r => (.ok (.arr v), r)) ∨
      nd.initIdx = some 0)
    (hln : linkNodes nodes0 = .ok nodes) :
    WFChain ⟨vn, nodes⟩ ∧
    Fam ⟨vn, nodes⟩ r0 0 (fun _ => 0)
      ⟨nodes.map (fun nd => ⟨nd.initIdx, []⟩), r0⟩ := by
  obtain ⟨hpos0, hlen2, h0, hj⟩ := linkNodes_spec nodes0 nodes hln
  have hshapeP : ∀ p, p < nodes.length →
      ((nodes.getD p default).initIdx = none ∧
        ∃ v, (nodes.getD p default).gen = fun r => (.ok (.arr v), r)) ∨
      (nodes.getD p default).initIdx = some 0 := by
    intro p hp
    have hp0 : p < nodes0.length := by omega
    have hmem : nodes0.getD p default ∈ nodes0 := by
      rw [List.getD_eq_getElem _ _ hp0]
      exact List.getElem_mem _
    have hsh := hshape _ hmem
    rcases Nat.eq_zero_or_pos p with rfl | hpp
    · rw [h0]
      exact hsh
    · rw [hj p hpp hp0]
      exact hsh
  have hwf : WFChain ⟨vn, nodes⟩ := by
    refine ⟨by show 0 < nodes.length; omega,
      by show vn.length = nodes.length; omega, ?_, ?_, ?_, ?_, ?_, ?_⟩
    · show (nodes.getD 0 default).prev = nodes.length - 1
      rw [h0]
      show nodes0.length - 1 = nodes.length - 1
      omega
    · show (nodes.getD 0 default).offset = -1
      rw [h0]
    · intro i hi0 hi
      have hi2 : i < nodes.length := hi
      show (nodes.getD i default).prev = i - 1
      rw [hj i hi0 (by omega)]
    · intro i hi0 hi
      have hi2 : i < nodes.length := hi
      show (nodes.getD i default).offset = 0
      rw [hj i hi0 (by omega)]
    · intro p hp hact
      rcases hshapeP p hp with ⟨hnone, -⟩ | hsome
      · exfalso
        have hfalse : actB ⟨vn, nodes⟩ p = false := by
          show (nodes.getD p default).initIdx.isSome = false
          rw [hnone]
          rfl
        rw [hact] at hfalse
        cases hfalse
      · exact hsome
    · intro p hp hconst
      rcases hshapeP p hp with ⟨-, v, hgen⟩ | hsome
      · exact ⟨v, hgen⟩
      · exfalso
        have htrue : actB ⟨vn, nodes⟩ p = true := by
          show (nodes.getD p default).initIdx.isSome = true
          rw [hsome]
          rfl
        rw [hconst] at htrue
        cases htrue
  refine ⟨hwf, ?_, ?_, ?_, ?_, ?_, ?_, ?_⟩
  · simp
  · intro p hp hconst
    show (nodes.map (fun nd => (⟨nd.initIdx, []⟩ : NodeDyn))).getD p default = _
    rw [List.getD_eq_getElem _ _ (by simpa using hp), List.getElem_map]
    rcases hshapeP p hp with ⟨hnone, -⟩ | hsome
    · rw [← List.getD_eq_getElem _ _ hp, hnone]
    · exfalso
      have htrue : actB ⟨vn, nodes⟩ p = true := by
        show (nodes.getD p default).initIdx.isSome = true
        rw [hsome]
        rfl
      rw [hconst] at htrue
      cases htrue
  · intro r hr
    obtain ⟨hp, hact⟩ := rankPos_lt ⟨vn, nodes⟩ r hr
    have hinit := hwf.activeInit _ hp hact
    show ((nodes.map (fun nd => (⟨nd.initIdx, []⟩ : NodeDyn))).getD
      (rankPos ⟨vn, nodes⟩ r) default).sampled_idx = _
    rw [List.getD_eq_getElem _ _ (by simpa using hp), List.getElem_map]
    rw [← List.getD_eq_getElem _ _ hp]
    rw [show (nodeAt ⟨vn, nodes⟩ (rankPos ⟨vn, nodes⟩ r)).initIdx =
      (nodes.getD (rankPos ⟨vn, nodes⟩ r) default).initIdx from rfl] at hinit
    rw [hinit]
    simp [rounds]
  · intro r hr
    obtain ⟨hp, -⟩ := rankPos_lt ⟨vn, nodes⟩ r hr
    show ((nodes.map (fun nd => (⟨nd.initIdx, []⟩ : NodeDyn))).getD
      (rankPos ⟨vn, nodes⟩ r) default).cache.length = _
    rw [List.getD_eq_getElem _ _ (by simpa using hp), List.getElem_map]
    simp [rounds]
  · intro r hr k v hv
    obtain ⟨hp, -⟩ := rankPos_lt ⟨vn, nodes⟩ r hr
    rw [show ((nodes.map (fun nd => (⟨nd.initIdx, []⟩ : NodeDyn))).getD
        (rankPos ⟨vn, nodes⟩ r) default).cache = [] by
      rw [List.getD_eq_getElem _ _ (by simpa using hp), List.getElem_map]] at hv
    exact absurd hv (by simp)
  · intro r hr
    exact Nat.zero_le _
  · rfl

/-- `ParameterSetSampler.__init__` success yields a well-formed chain in
its initial family state. -/
theorem construct_wf (dists : PDict) (seed : Option Int) (amb : RNGState)
    (ch : Chain) (amb2 : RNGState)
    (h : construct dists seed amb = (.ok ch, amb2)) :
    WFChain ch.static ∧
    Fam ch.static ch.rng_state 0 (fun _ => 0) ⟨ch.dyn, ch.rng_state⟩ := by
  simp only [construct] at h
  by_cases hpa : 1 < (populationAttrsList.filter (fun a => psMem dists a)).length
  · rw [if_pos hpa] at h
    exact absurd h (by simp)
  · rw [if_neg hpa] at h
    rcases hrp : resolvePopnames dists
        (populationAttrsList.filter (fun a => psMem dists a)) with e | pn
    · simp only [hrp] at h
      exact absurd h (by simp)
    · simp only [hrp] at h
      rcases hrs : resolveSeed dists seed with e | seedO
      · simp only [hrs] at h
        exact absurd h (by simp)
      · simp only [hrs] at h
        rcases hbn : buildNodes dists pn
            (sortNames ((dists.map Prod.fst).filter
              (fun n => !(("seed" :: populationAttrsList.filter
                (fun a => psMem dists a)).contains n)))) with e | nodes0
        · simp only [hbn] at h
          exact absurd h (by simp)
        · simp only [hbn] at h
          rcases hln : linkNodes nodes0 with e | nodes
          · simp only [hln] at h
            exact absurd h (by simp)
          · simp only [hln, Prod.mk.injEq, Except.ok.injEq] at h
            obtain ⟨hch, -⟩ := h
            subst hch
            obtain ⟨hlen0, hshape⟩ := buildNodes_spec dists pn _ nodes0 hbn
            exact assembled_wf _ nodes0 nodes _ hlen0 hshape hln

/-- The family invariant only observes the node states through `getD`,
the length and the live generator. -/
theorem fam_ext (cs : ChainStatic) (r0 : RNGState) {t : Nat} {cons : Nat → Nat}
    {s : SState} (hfam : Fam cs r0 t cons s) (s2 : SState)
    (hrng : s2.rng = s.rng) (hlen : s2.dyn.length = s.dyn.length)
    (hsame : ∀ q, q < cs.nodes.length →
      s2.dyn.getD q default = s.dyn.getD q default) :
    Fam cs r0 t cons s2 := by
  refine ⟨by rw [hlen]; exact hfam.len, ?_, ?_, ?_, ?_, hfam.consLe,
    by rw [hrng]; exact hfam.rng⟩
  · intro q hq hqc
    rw [hsame q hq]
    exact hfam.constPart q hq hqc
  · intro r hr
    rw [hsame _ (rankPos_lt cs r hr).1]
    exact hfam.activeIdx r hr
  · intro r hr
    rw [hsame _ (rankPos_lt cs r hr).1]
    exact hfam.cacheLen r hr
  · intro r hr k v hv
    rw [hsame _ (rankPos_lt cs r hr).1] at hv
    exact hfam.cacheVals r hr k v hv

/-- `ParameterSampler.__call__` on a constant node: the returned value is
the node's constant and the family state is untouched (observably; the
transient cache entry is pushed and immediately popped). -/
theorem callSampler_const (cs : ChainStatic) (r0 : RNGState) (hwf : WFChain cs)
    (fuel : Nat) {t : Nat} {cons : Nat → Nat} {s : SState} {p : Nat}
    {v0 : Value} {s2 : SState}
    (hfam : Fam cs r0 t cons s) (hp : p < cs.nodes.length)
    (hconst : actB cs p = false)
    (hrun : callSampler cs fuel p s = (.ok v0, s2)) :
    (∀ rr, (nodeAt cs p).gen rr = (.ok v0, rr)) ∧ Fam cs r0 t cons s2 := by
  obtain ⟨cv, hgen⟩ := hwf.constGen p hp hconst
  have hplen : p < s.dyn.length := by rw [hfam.len]; exact hp
  have hcp := hfam.constPart p hp hconst
  have hce : s.cacheAt p = [] := by
    show (s.dyn.getD p default).cache = []
    rw [hcp]
  simp only [callSampler, hce, List.isEmpty_nil, if_true] at hrun
  cases fuel with
  | zero =>
    simp only [sampleRec] at hrun
    exact absurd hrun (by simp)
  | succ f =>
    have hidx : s.idxAt p = none := by
      show (s.dyn.getD p default).sampled_idx = none
      rw [hcp]
    have hgen2 : (cs.nodes.getD p default).gen =
        fun r => ((.ok (.arr cv) : Except PyErr Value), r) := hgen
    simp only [sampleRec, hidx, hgen2] at hrun
    have hca : (SState.pushCache { s with rng := s.rng } p (.arr cv)).cacheAt p =
        [.arr cv] := by
      show ((s.dyn.set p ⟨(s.dyn.getD p default).sampled_idx,
        (s.dyn.getD p default).cache ++ [.arr cv]⟩).getD p default).cache = _
      rw [getD_set_self _ _ _ hplen, hcp]
      rfl
    simp only [hca] at hrun
    simp only [Prod.mk.injEq, Except.ok.injEq] at hrun
    obtain ⟨hv, hs2⟩ := hrun
    subst hv
    constructor
    · intro rr
      rw [show (nodeAt cs p).gen = (cs.nodes.getD p default).gen from rfl, hgen2]
    · refine fam_ext cs r0 hfam s2 ?_ ?_ ?_
      · rw [← hs2]
        rfl
      · rw [← hs2]
        show ((s.dyn.set p _).set p _).length = _
        rw [List.length_set, List.length_set]
      · intro q hq
        rw [← hs2]
        rcases eq_or_ne q p with rfl | hne
        · show ((s.dyn.set q _).set q
            ⟨(((s.dyn.set q _).getD q default)).sampled_idx, []⟩).getD q default = _
          rw [getD_set_self _ _ _ (by rw [List.length_set]; exact hplen),
            getD_set_self _ _ _ hplen, hcp]
        · show ((s.dyn.set p _).set p _).getD q default = _
          rw [getD_set_ne _ _ _ _ (fun h => hne h.symm),
            getD_set_ne _ _ _ _ (fun h => hne h.symm)]

/-- The canonical value a chain yields for the `k`-th request of variable
`v` past consumption state `cons`: for a constant node the node's
constant, for the active node of rank `r` the canonical stream value of
its `cons r + k`-th draw. -/
def CanonV (cs : ChainStatic) (r0 : RNGState) (cons : Nat → Nat)
    (v : String) (k : Nat) (w : Value) : Prop :=
  ∃ p, samplerPos cs v = .ok p ∧
    ((∀ rr, (nodeAt cs p).gen rr = (.ok w, rr)) ∨
     (∃ r, r < mOf cs ∧ rankPos cs r = p ∧
        sVal cs r0 ((cons r + k) * mOf cs + r) = .ok w))

/-- The canonical value is unique. -/
theorem canonV_unique (cs : ChainStatic) (r0 : RNGState) (cons : Nat → Nat)
    (v : String) (k : Nat) (w1 w2 : Value)
    (h1 : CanonV cs r0 cons v k w1) (h2 : CanonV cs r0 cons v k w2) :
    w1 = w2 := by
  obtain ⟨p1, hs1, hc1⟩ := h1
  obtain ⟨p2, hs2, hc2⟩ := h2
  rw [hs1] at hs2
  obtain rfl : p1 = p2 := by
    simpa using hs2
  have key : ∀ (r : Nat) (w w' : Value), r < mOf cs → rankPos cs r = p1 →
      sVal cs r0 ((cons r + k) * mOf cs + r) = .ok w →
      (∀ rr, (nodeAt cs p1).gen rr = (.ok w', rr)) → w = w' := by
    intro r w w' hr hppos hv hcn
    have hm : 0 < mOf cs := by omega
    have hmod : ((cons r + k) * mOf cs + r) % mOf cs = r := by
      rw [Nat.mul_comm, Nat.mul_add_mod, Nat.mod_eq_of_lt hr]
    unfold sVal at hv
    rw [hmod] at hv
    unfold genOf at hv
    rw [hppos, hcn] at hv
    simpa using hv.symm
  rcases hc1 with hcn1 | ⟨r1, hr1, hp1, hv1⟩
  · rcases hc2 with hcn2 | ⟨r2, hr2, hp2, hv2⟩
    · have e1 := hcn1 r0
      have e2 := hcn2 r0
      rw [e1] at e2
      simpa using e2
    · exact (key r2 w2 w1 hr2 hp2 hv2 hcn1).symm
  · rcases hc2 with hcn2 | ⟨r2, hr2, hp2, hv2⟩
    · exact key r1 w1 w2 hr1 hp1 hv1 hcn2
    · obtain rfl : r1 = r2 := by
        apply rankPos_inj cs r1 r2 hr1 hr2
        rw [hp1, hp2]
      rw [hv1] at hv2
      simpa using hv2

/-- The sequence of values a run returned for one variable, in call
order. -/
def valuesFor (out : List (String × Value)) (v : String) : List Value :=
  out.filterMap (fun q => if q.1 = v then some q.2 else none)

theorem valuesFor_cons (n : String) (w : Value) (rest : List (String × Value))
    (v : String) :
    valuesFor ((n, w) :: rest) v =
      if n = v then w :: valuesFor rest v else valuesFor rest v := by
  by_cases h : n = v <;> simp [valuesFor, List.filterMap_cons, h]

/-- Partial correctness of a driver run: every value handed out is the
canonical value of its variable and draw number, and the final chain is
again a family state. -/
theorem runCalls_spec (cs : ChainStatic) (r0 : RNGState) (hwf : WFChain cs)
    (fuel : Nat) :
    ∀ (L : List String) (t : Nat) (cons : Nat → Nat) (s : SState)
      (amb : RNGState) (out : List (String × Value)) (ch2 : Chain)
      (amb2 : RNGState),
    Fam cs r0 t cons s →
    runCalls fuel ⟨cs, s.dyn, s.rng⟩ amb L = (.ok out, ch2, amb2) →
    (∀ (v : String) (k : Nat) (w : Value),
      (valuesFor out v).get? k = some w → CanonV cs r0 cons v k w) ∧
    (ch2.static = cs ∧ ∃ t2 cons2, Fam cs r0 t2 cons2 ⟨ch2.dyn, ch2.rng_state⟩) := by
  intro L
  induction L with
  | nil =>
    intro t cons s amb out ch2 amb2 hfam hrun
    simp only [runCalls, Prod.mk.injEq, Except.ok.injEq] at hrun
    obtain ⟨hout, hch, -⟩ := hrun
    subst hout
    refine ⟨?_, by rw [← hch], t, cons, by rw [← hch]; exact hfam⟩
    intro v k w hw
    simp [valuesFor] at hw
  | cons n rest ih =>
    intro t cons s amb out ch2 amb2 hfam hrun
    rcases hsc : sampleCall ⟨cs, s.dyn, s.rng⟩ fuel (.one n) amb
      with ⟨scres, ch1, amb1⟩
    simp only [runCalls, hsc] at hrun
    rcases scres with e | vres
    · exact absurd hrun (by simp)
    · cases vres with
      | pset l1 => exact absurd hrun (by simp)
      | val v1 =>
        rcases hrc : runCalls fuel ch1 amb1 rest with ⟨rres, ch2b, amb2b⟩
        simp only [hrc] at hrun
        cases rres with
        | error e2 => exact absurd hrun (by simp)
        | ok out2 =>
          simp only [Prod.mk.injEq, Except.ok.injEq] at hrun
          obtain ⟨hout, hch2, hamb2⟩ := hrun
          subst hout
          rw [hch2, hamb2] at hrc
          -- dissect the one call
          simp only [sampleCall, sampleBody] at hsc
          rcases hsp : samplerPos cs n with e2 | p
          · simp only [hsp, Prod.mk.injEq] at hsc
            exact absurd hsc.1 (by simp)
          · simp only [hsp] at hsc
            rcases hcall : callSampler cs fuel p s with ⟨cres, s1⟩
            have hcall2 : callSampler cs fuel p ⟨s.dyn, s.rng⟩ = (cres, s1) := hcall
            simp only [hcall2] at hsc
            cases cres with
            | error e3 =>
              simp only [Prod.mk.injEq] at hsc
              exact absurd hsc.1 (by simp)
            | ok w =>
              simp only [Prod.mk.injEq, Except.ok.injEq, SampleRes.val.injEq] at hsc
              obtain ⟨hwv, hch1, hamb1⟩ := hsc
              rw [hwv] at hcall
              rw [← hch1, ← hamb1] at hrc
              obtain ⟨hplt, hname⟩ := samplerPos_name cs n p hsp
              have hpn : p < cs.nodes.length := by
                have := hwf.lenv
                omega
              by_cases hact : actB cs p = true
              · obtain ⟨r, hr, hrp⟩ := actB_rank cs p hpn hact
                rw [← hrp] at hcall
                obtain ⟨hval, t2, hfam2⟩ :=
                  callSampler_active cs r0 hwf fuel hfam hr hcall
                obtain ⟨ihV, ihF⟩ := ih t2 (consB cons r) s1 amb out2 ch2 amb2 hfam2 hrc
                refine ⟨?_, ihF⟩
                intro v k w2 hw2
                rw [valuesFor_cons] at hw2
                by_cases hnv : n = v
                · rw [if_pos hnv] at hw2
                  cases k with
                  | zero =>
                    simp only [List.get?_cons_zero] at hw2
                    obtain rfl : v1 = w2 := Option.some.inj hw2
                    exact ⟨p, by rw [← hnv]; exact hsp,
                      Or.inr ⟨r, hr, hrp, by simpa using hval⟩⟩
                  | succ k2 =>
                    simp only [List.get?_cons_succ] at hw2
                    obtain ⟨p2, hsp2, hcase⟩ := ihV v k2 w2 hw2
                    rw [← hnv] at hsp2
                    rw [hsp] at hsp2
                    obtain rfl : p = p2 := by simpa using hsp2
                    refine ⟨p, by rw [← hnv]; exact hsp, ?_⟩
                    rcases hcase with hcn | ⟨r2, hr2, hrp2, hv2⟩
                    · exact Or.inl hcn
                    · obtain rfl : r = r2 :=
                        (rankPos_inj cs r2 r hr2 hr (by rw [hrp2, hrp])).symm
                      refine Or.inr ⟨r, hr, hrp, ?_⟩
                      have hcb : consB cons r r = cons r + 1 := by simp [consB]
                      rw [hcb] at hv2
                      rw [show cons r + (k2 + 1) = cons r + 1 + k2 by omega]
                      exact hv2
                · rw [if_neg hnv] at hw2
                  obtain ⟨p2, hsp2, hcase⟩ := ihV v k w2 hw2
                  refine ⟨p2, hsp2, ?_⟩
                  rcases hcase with hcn | ⟨r2, hr2, hrp2, hv2⟩
                  · exact Or.inl hcn
                  · have hne : r2 ≠ r := by
                      intro hh
                      subst hh
                      rw [hrp2] at hrp
                      obtain ⟨-, hname2⟩ := samplerPos_name cs v p2 hsp2
                      rw [hrp] at hname2
                      rw [hname] at hname2
                      exact hnv (Option.some.inj hname2)
                    refine Or.inr ⟨r2, hr2, hrp2, ?_⟩
                    have hcb : consB cons r r2 = cons r2 := by simp [consB, hne]
                    rw [hcb] at hv2
                    exact hv2
              · have hconst : actB cs p = false := by
                  revert hact
                  cases actB cs p <;> simp
                obtain ⟨hcn, hfam2⟩ :=
                  callSampler_const cs r0 hwf fuel hfam hpn hconst hcall
                obtain ⟨ihV, ihF⟩ := ih t cons s1 amb out2 ch2 amb2 hfam2 hrc
                refine ⟨?_, ihF⟩
                intro v k w2 hw2
                rw [valuesFor_cons] at hw2
                by_cases hnv : n = v
                · rw [if_pos hnv] at hw2
                  cases k with
                  | zero =>
                    simp only [List.get?_cons_zero] at hw2
                    obtain rfl : v1 = w2 := Option.some.inj hw2
                    exact ⟨p, by rw [← hnv]; exact hsp, Or.inl hcn⟩
                  | succ k2 =>
                    simp only [List.get?_cons_succ] at hw2
                    obtain ⟨p2, hsp2, hcase⟩ := ihV v k2 w2 hw2
                    rw [← hnv] at hsp2
                    rw [hsp] at hsp2
                    obtain rfl : p = p2 := by simpa using hsp2
                    refine ⟨p, by rw [← hnv]; exact hsp, ?_⟩
                    rcases hcase with hcn2 | ⟨r2, hr2, hrp2, -⟩
                    · exact Or.inl hcn2
                    · obtain ⟨-, hab⟩ := rankPos_lt cs r2 hr2
                      rw [hrp2, hconst] at hab
                      exact absurd hab (by simp)
                · rw [if_neg hnv] at hw2
                  exact ihV v k w2 hw2

/-- C1: for a fixed specification and a resolved seed, two independently
constructed chains (each with its own ambient generator state) produce
identical per-variable value sequences regardless of the order in which
the two callers request variables: the `k`-th value recorded for
variable `v` in one successful run equals the `k`-th value recorded for
`v` in the other run. -/
theorem C1_call_order_independent (dists : PDict) (seed : Option Int) (s0 : Int)
    (ambA ambB : RNGState) (chA chB : Chain) (a2 b2 : RNGState)
    (fuelA fuelB : Nat) (L1 L2 : List String)
    (out1 out2 : List (String × Value)) (chA2 chB2 : Chain) (a3 b3 : RNGState)
    (hseed : resolveSeed dists seed = .ok (some s0))
    (hA : construct dists seed ambA = (.ok chA, a2))
    (hB : construct dists seed ambB = (.ok chB, b2))
    (h1 : runCalls fuelA chA a2 L1 = (.ok out1, chA2, a3))
    (h2 : runCalls fuelB chB b2 L2 = (.ok out2, chB2, b3))
    (v : String) (k : Nat) (w1 w2 : Value)
    (hw1 : (valuesFor out1 v).get? k = some w1)
    (hw2 : (valuesFor out2 v).get? k = some w2) :
    w1 = w2 := by
  obtain rfl : chA = chB := construct_det dists seed s0 hseed ambA ambB hA hB
  obtain ⟨hwf, hfam⟩ := construct_wf dists seed ambA chA a2 hA
  have hca1 := (runCalls_spec chA.static chA.rng_state hwf fuelA L1 0
    (fun _ => 0) ⟨chA.dyn, chA.rng_state⟩ a2 out1 chA2 a3 hfam h1).1 v k w1 hw1
  have hca2 := (runCalls_spec chA.static chA.rng_state hwf fuelB L2 0
    (fun _ => 0) ⟨chA.dyn, chA.rng_state⟩ b2 out2 chB2 b3 hfam h2).1 v k w2 hw2
  exact canonV_unique chA.static chA.rng_state (fun _ => 0) v k w1 w2 hca1 hca2

/-- `{x: {dist: normal, shape: [1], loc: 0, scale: 1},
y: {dist: normal, shape: [1], loc: 3, scale: 2}}`. -/
def specXY : PDict :=
  [("x", .pset [("dist", .val (.str "normal")),
                ("shape", .val (PyVal.ofList [.int 1])),
                ("loc", .val (.int 0)), ("scale", .val (.int 1))]),
   ("y", .pset [("dist", .val (.str "normal")),
                ("shape", .val (PyVal.ofList [.int 1])),
                ("loc", .val (.int 3)), ("scale", .val (.int 2))])]

/-- A second distinguishable ambient generator state. -/
def ambD : RNGState := ⟨none, 11, 5⟩

/-- The chain `construct specXY (some 100)` builds (the same one for any
ambient state). -/
def chXY : Chain :=
  match (construct specXY (some 100) ambC).1 with
  | .ok ch => ch
  | .error _ => ⟨⟨[], []⟩, [], npSeed 0⟩

/-- Run A: request `y`, `x`, `y`. -/
def runXY1 := runCalls 9 chXY ambC ["y", "x", "y"]

/-- Run B: request `x`, `y`, `y`. -/
def runXY2 := runCalls 9 chXY ambD ["x", "y", "y"]

def outXY1 : List (String × Value) :=
  match runXY1.1 with
  | .ok o => o
  | .error _ => []

def outXY2 : List (String × Value) :=
  match runXY2.1 with
  | .ok o => o
  | .error _ => []

/-- The second `y` value of run A / of run B. -/
def wC1A : Value := ((valuesFor outXY1 "y").get? 1).getD (.arr (.int 0))

def wC1B : Value := ((valuesFor outXY2 "y").get? 1).getD (.arr (.int 0))

theorem C1_call_order_independent_witness :
    resolveSeed specXY (some 100) = .ok (some 100) ∧ wC1A = wC1B :=
  ⟨rfl, C1_call_order_independent specXY (some 100) 100 ambC ambD chXY chXY
    ambC ambD 9 9 ["y", "x", "y"] ["x", "y", "y"] outXY1 outXY2
    runXY1.2.1 runXY2.2.1 runXY1.2.2 runXY2.2.2
    rfl rfl rfl rfl rfl "y" 1 wC1A wC1B rfl rfl⟩

/-- Pushing a value does not move `sampled_idx`. -/
theorem idxAt_pushCache_self (s : SState) (p : Nat) (v : Value)
    (hp : p < s.dyn.length) : (s.pushCache p v).idxAt p = s.idxAt p := by
  show ((s.dyn.set p _).getD p default).sampled_idx = _
  rw [getD_set_self _ _ _ hp]
  rfl

/-- Pushing appends to the cache. -/
theorem cacheAt_pushCache_self (s : SState) (p : Nat) (v : Value)
    (hp : p < s.dyn.length) :
    (s.pushCache p v).cacheAt p = s.cacheAt p ++ [v] := by
  show ((s.dyn.set p _).getD p default).cache = _
  rw [getD_set_self _ _ _ hp]
  rfl

theorem pushCache_dyn_length (s : SState) (p : Nat) (v : Value) :
    (s.pushCache p v).dyn.length = s.dyn.length := by
  show (s.dyn.set p _).length = _
  rw [List.length_set]

/-- One `_sample()` on an idle (constant) node just appends one constant
value. -/
theorem sampleRec_const_step (cs : ChainStatic) (f p : Nat) (s : SState)
    (cv : Value) (hidx : s.idxAt p = none)
    (hgen2 : (cs.nodes.getD p default).gen = fun r => (.ok cv, r)) :
    sampleRec cs (f + 1) p none s = (.ok (), s.pushCache p cv) := by
  simp only [sampleRec, hidx, hgen2]

/-- The FIFO experiment of the spec: fill the cache three times in a row
with `_sample()`, then pop three values at once. -/
def fillPops (cs : ChainStatic) (fuel : Nat) (p : Nat) (s : SState) :
    Except PyErr (Value × Value × Value) × SState :=
  match sampleRec cs fuel p none s with
  | (.error e, s1) => (.error e, s1)
  | (.ok _, s1) =>
    match sampleRec cs fuel p none s1 with
    | (.error e, s2) => (.error e, s2)
    | (.ok _, s2) =>
      match sampleRec cs fuel p none s2 with
      | (.error e, s3) => (.error e, s3)
      | (.ok _, s3) =>
        match s3.cacheAt p with
        | v1 :: v2 :: v3 :: rest => (.ok (v1, v2, v3), s3.setCache p rest)
        | _ => (.error (.indexError "pop from an empty deque"), s3)

/-- The three values popped by the fill-then-pop experiment are the
variable's canonical values number `0`, `1`, `2`. -/
theorem fillPops_canon (cs : ChainStatic) (r0 : RNGState) (hwf : WFChain cs)
    (fuel : Nat) {t : Nat} {cons : Nat → Nat} {s : SState} {n : String}
    {p : Nat} {w1 w2 w3 : Value} {s4 : SState}
    (hfam : Fam cs r0 t cons s) (hsp : samplerPos cs n = .ok p)
    (hrun : fillPops cs fuel p s = (.ok (w1, w2, w3), s4)) :
    CanonV cs r0 cons n 0 w1 ∧ CanonV cs r0 cons n 1 w2 ∧
    CanonV cs r0 cons n 2 w3 := by
  obtain ⟨hplt, -⟩ := samplerPos_name cs n p hsp
  have hpn : p < cs.nodes.length := by
    have := hwf.lenv
    omega
  by_cases hact : actB cs p = true
  · obtain ⟨r, hr, hrp⟩ := actB_rank cs p hpn hact
    subst hrp
    have hm : 0 < mOf cs := by omega
    rcases h1 : sampleRec cs fuel (rankPos cs r) none s with ⟨res1, s1⟩
    simp only [fillPops, h1] at hrun
    cases res1 with
    | error e => exact absurd hrun (by simp)
    | ok u1 =>
      have hf1 := ((cascade cs r0 hwf fuel).1 t cons s r none (.ok u1) s1 hfam hr
        h1 rfl (by simp)).2 (by simp)
      rcases h2 : sampleRec cs fuel (rankPos cs r) none s1 with ⟨res2, s2⟩
      simp only [h2] at hrun
      cases res2 with
      | error e => exact absurd hrun (by simp)
      | ok u2 =>
        have hf2 := ((cascade cs r0 hwf fuel).1 _ cons s1 r none (.ok u2) s2 hf1
          hr h2 rfl (by simp)).2 (by simp)
        rw [rounds_fill (mOf cs) (rounds (mOf cs) t r) r hm hr] at hf2
        rcases h3 : sampleRec cs fuel (rankPos cs r) none s2 with ⟨res3, s3⟩
        simp only [h3] at hrun
        cases res3 with
        | error e => exact absurd hrun (by simp)
        | ok u3 =>
          have hf3 := ((cascade cs r0 hwf fuel).1 _ cons s2 r none (.ok u3) s3
            hf2 hr h3 rfl (by simp)).2 (by simp)
          rw [rounds_fill (mOf cs) (rounds (mOf cs) t r + 1) r hm hr] at hf3
          have hl := hf3.cacheLen r hr
          rw [rounds_fill (mOf cs) (rounds (mOf cs) t r + 1 + 1) r hm hr] at hl
          have hcons := hfam.consLe r hr
          rcases hc : s3.cacheAt (rankPos cs r)
            with _ | ⟨c1, _ | ⟨c2, _ | ⟨c3, crest⟩⟩⟩
          · rw [show (s3.dyn.getD (rankPos cs r) default).cache = _ from hc] at hl
            simp at hl
            omega
          · rw [show (s3.dyn.getD (rankPos cs r) default).cache = _ from hc] at hl
            simp at hl
            omega
          · rw [show (s3.dyn.getD (rankPos cs r) default).cache = _ from hc] at hl
            simp at hl
            omega
          · simp only [hc, Prod.mk.injEq, Except.ok.injEq] at hrun
            obtain ⟨⟨e1, e2, e3⟩, -⟩ := hrun
            subst e1
            subst e2
            subst e3
            refine ⟨⟨rankPos cs r, hsp, Or.inr ⟨r, hr, rfl, ?_⟩⟩,
                    ⟨rankPos cs r, hsp, Or.inr ⟨r, hr, rfl, ?_⟩⟩,
                    ⟨rankPos cs r, hsp, Or.inr ⟨r, hr, rfl, ?_⟩⟩⟩
            · exact hf3.cacheVals r hr 0 c1 (by
                rw [show (s3.dyn.getD (rankPos cs r) default).cache = _ from hc]
                rfl)
            · exact hf3.cacheVals r hr 1 c2 (by
                rw [show (s3.dyn.getD (rankPos cs r) default).cache = _ from hc]
                rfl)
            · exact hf3.cacheVals r hr 2 c3 (by
                rw [show (s3.dyn.getD (rankPos cs r) default).cache = _ from hc]
                rfl)
  · have hconst : actB cs p = false := by
      revert hact
      cases actB cs p <;> simp
    obtain ⟨cv, hgen⟩ := hwf.constGen p hpn hconst
    have hgen2 : (cs.nodes.getD p default).gen =
        fun r => ((.ok (.arr cv) : Except PyErr Value), r) := hgen
    have hplen : p < s.dyn.length := by rw [hfam.len]; exact hpn
    have hcp := hfam.constPart p hpn hconst
    have hidx : s.idxAt p = none := by
      show (s.dyn.getD p default).sampled_idx = none
      rw [hcp]
    have hce : s.cacheAt p = [] := by
      show (s.dyn.getD p default).cache = []
      rw [hcp]
    cases fuel with
    | zero =>
      simp only [fillPops, sampleRec] at hrun
      exact absurd hrun (by simp)
    | succ f =>
      have e1 := sampleRec_const_step cs f p s (.arr cv) hidx hgen2
      have hplen1 : p < (s.pushCache p (.arr cv)).dyn.length := by
        rw [pushCache_dyn_length]
        exact hplen
      have hidx1 : (s.pushCache p (.arr cv)).idxAt p = none := by
        rw [idxAt_pushCache_self s p _ hplen]
        exact hidx
      have e2 := sampleRec_const_step cs f p (s.pushCache p (.arr cv)) (.arr cv)
        hidx1 hgen2
      have hplen2 : p < ((s.pushCache p (.arr cv)).pushCache p (.arr cv)).dyn.length := by
        rw [pushCache_dyn_length]
        exact hplen1
      have hidx2 : ((s.pushCache p (.arr cv)).pushCache p (.arr cv)).idxAt p = none := by
        rw [idxAt_pushCache_self _ p _ hplen1]
        exact hidx1
      have e3 := sampleRec_const_step cs f p
        ((s.pushCache p (.arr cv)).pushCache p (.arr cv)) (.arr cv) hidx2 hgen2
      have hc3 : (((s.pushCache p (.arr cv)).pushCache p (.arr cv)).pushCache p
          (.arr cv)).cacheAt p = [.arr cv, .arr cv, .arr cv] := by
        rw [cacheAt_pushCache_self _ p _ hplen2, cacheAt_pushCache_self _ p _ hplen1,
          cacheAt_pushCache_self _ p _ hplen, hce]
        rfl
      simp only [fillPops, e1, e2, e3, hc3, Prod.mk.injEq, Except.ok.injEq] at hrun
      obtain ⟨⟨f1, f2, f3⟩, -⟩ := hrun
      subst f1
      subst f2
      subst f3
      have hgenN : ∀ rr, (nodeAt cs p).gen rr = (.ok (.arr cv), rr) := by
        intro rr
        rw [show (nodeAt cs p).gen = (cs.nodes.getD p default).gen from rfl, hgen2]
      exact ⟨⟨p, hsp, Or.inl hgenN⟩, ⟨p, hsp, Or.inl hgenN⟩, ⟨p, hsp, Or.inl hgenN⟩⟩

/-- C6: `__call__` pops and returns the oldest cached value (FIFO).  On
any reachable chain, calling `sample(n)` three times in a row yields the
same three values, in the same order, as filling the variable's cache
with three `_sample()` steps and then popping three times. -/
theorem C6_fifo_replay (dists : PDict) (seed : Option Int) (amb : RNGState)
    (ch : Chain) (amb2 : RNGState) (fuel0 : Nat) (L : List String)
    (out0 : List (String × Value)) (ch1 : Chain) (amb3 : RNGState)
    (n : String) (p : Nat) (fuelA fuelB : Nat)
    (out3 : List (String × Value)) (ch2 : Chain) (amb4 : RNGState)
    (v1 v2 v3 w1 w2 w3 : Value) (s4 : SState)
    (hcon : construct dists seed amb = (.ok ch, amb2))
    (hpre : runCalls fuel0 ch amb2 L = (.ok out0, ch1, amb3))
    (hsp : samplerPos ch.static n = .ok p)
    (h3 : runCalls fuelA ch1 amb3 [n, n, n] = (.ok out3, ch2, amb4))
    (hv1 : (valuesFor out3 n).get? 0 = some v1)
    (hv2 : (valuesFor out3 n).get? 1 = some v2)
    (hv3 : (valuesFor out3 n).get? 2 = some v3)
    (hfp : fillPops ch.static fuelB p ⟨ch1.dyn, ch1.rng_state⟩ =
      (.ok (w1, w2, w3), s4)) :
    v1 = w1 ∧ v2 = w2 ∧ v3 = w3 := by
  obtain ⟨hwf, hfam0⟩ := construct_wf dists seed amb ch amb2 hcon
  obtain ⟨-, hstat, t1, cons1, hfam1⟩ := runCalls_spec ch.static ch.rng_state hwf
    fuel0 L 0 (fun _ => 0) ⟨ch.dyn, ch.rng_state⟩ amb2 out0 ch1 amb3 hfam0 hpre
  have h3b : runCalls fuelA ⟨ch.static, ch1.dyn, ch1.rng_state⟩ amb3 [n, n, n] =
      (.ok out3, ch2, amb4) := by
    rw [← hstat]
    exact h3
  have hcalls := (runCalls_spec ch.static ch.rng_state hwf fuelA [n, n, n] t1
    cons1 ⟨ch1.dyn, ch1.rng_state⟩ amb3 out3 ch2 amb4 hfam1 h3b).1
  obtain ⟨hf1, hf2, hf3⟩ :=
    fillPops_canon ch.static ch.rng_state hwf fuelB hfam1 hsp hfp
  exact ⟨canonV_unique ch.static ch.rng_state cons1 n 0 v1 w1
      (hcalls n 0 v1 hv1) hf1,
    canonV_unique ch.static ch.rng_state cons1 n 1 v2 w2
      (hcalls n 1 v2 hv2) hf2,
    canonV_unique ch.static ch.rng_state cons1 n 2 v3 w3
      (hcalls n 2 v3 hv3) hf3⟩

/-- A reachable chain: `chXY` after one `sample(y)` call. -/
def runC6pre := runCalls 9 chXY ambC ["y"]

def outC6pre : List (String × Value) :=
  match runC6pre.1 with
  | .ok o => o
  | .error _ => []

def chC6 : Chain := runC6pre.2.1

/-- Three `sample(x)` calls in a row on the reachable chain. -/
def runC6a := runCalls 9 chC6 runC6pre.2.2 ["x", "x", "x"]

def outC6 : List (String × Value) :=
  match runC6a.1 with
  | .ok o => o
  | .error _ => []

/-- Fill the `x` cache three times, then pop three values. -/
def fillC6 := fillPops chXY.static 9 0 ⟨chC6.dyn, chC6.rng_state⟩

def wC6 : Value × Value × Value :=
  match fillC6.1 with
  | .ok tr => tr
  | .error _ => (.arr (.int 0), .arr (.int 0), .arr (.int 0))

def vC6a : Value := ((valuesFor outC6 "x").get? 0).getD (.arr (.int 0))

def vC6b : Value := ((valuesFor outC6 "x").get? 1).getD (.arr (.int 0))

def vC6c : Value := ((valuesFor outC6 "x").get? 2).getD (.arr (.int 0))

theorem C6_fifo_replay_witness :
    samplerPos chXY.static "x" = .ok 0 ∧
    (vC6a = wC6.1 ∧ vC6b = wC6.2.1 ∧ vC6c = wC6.2.2) :=
  ⟨rfl, C6_fifo_replay specXY (some 100) ambC chXY ambC 9 ["y"] outC6pre chC6
    runC6pre.2.2 "x" 0 9 9 outC6 runC6a.2.1 runC6a.2.2
    vC6a vC6b vC6c wC6.1 wC6.2.1 wC6.2.2 fillC6.2
    rfl rfl rfl rfl rfl rfl rfl rfl⟩
